import Mathlib

/- Verification development for the BetterCompare Sublime Text plugin
   (Packages/BetterCompare/compare_plugin.py).

   The heart of the plugin is `compute_diff`, which walks the opcodes of
   `difflib.SequenceMatcher(None, left, right, autojunk=False)` and builds a
   padded, position-aligned pair of output line sequences with per-row
   classification marks, navigation anchors and changed-line pairs.  The
   plugin always constructs its matchers with `isjunk=None, autojunk=False`,
   so `bjunk`/`bpopular` are empty and the junk branches of difflib are dead
   code; the embedding below reproduces the live code paths of difflib's
   `find_longest_match`, `get_matching_blocks` and `get_opcodes` together
   with the plugin's own functions.

   Conventions of the shallow embedding: Python lists become `List`, the
   `j2len` dict becomes a total function `Nat → Nat` (missing key ↦ 0, like
   `dict.get(key, 0)`), in-range Python indexing `xs[i]` becomes `xs.getD i d`
   (the default is never reached on the live paths, which stay in range),
   and imperative accumulation loops become structural recursions that emit
   each iteration's appends in front of the remainder's. -/

namespace BetterCompare

/-- The filler written into padding rows: `BLANK_FILL = "/" * 120`. -/
def BLANK_FILL : String := String.mk (List.replicate 120 '/')

section Matcher

variable {α : Type} [DecidableEq α]

/-- difflib `__chain_b`: `b2j` maps an element to the ascending list of its
indices in `b` (no junk, no popularity pruning, since the plugin passes
`isjunk=None, autojunk=False`). -/
def b2j (b : List α) (x : α) : List Nat :=
  (List.range b.length).filter fun j => decide (b[j]? = some x)

/-- Python `k = j2len.get(j-1, 0) + 1`: for `j = 0` the key `-1` is absent,
so the lookup yields the default 0. -/
def j2lenNext (j2len : Nat → Nat) (j : Nat) : Nat :=
  (if j = 0 then 0 else j2len (j - 1)) + 1

/-- The best-match update of `find_longest_match`:
`if k > bestsize: besti, bestj, bestsize = i-k+1, j-k+1, k`. -/
def bestStep (j2len : Nat → Nat) (i : Nat) (best : Nat × Nat × Nat) (j : Nat) :
    Nat × Nat × Nat :=
  if best.2.2 < j2lenNext j2len j then
    (i + 1 - j2lenNext j2len j, j + 1 - j2lenNext j2len j, j2lenNext j2len j)
  else best

/-- The inner `for j in b2j.get(a[i], nothing)` loop of `find_longest_match`:
`j < blo` is Python's `continue`, `bhi ≤ j` its `break` (the index lists are
ascending), and each processed `j` stores `newj2len[j] = j2len.get(j-1,0)+1`
and updates the best triple. -/
def innerLoop (blo bhi : Nat) (j2len : Nat → Nat) (i : Nat) :
    List Nat → (Nat → Nat) → Nat × Nat × Nat → (Nat → Nat) × (Nat × Nat × Nat)
  | [], acc, best => (acc, best)
  | j :: js, acc, best =>
    if j < blo then innerLoop blo bhi j2len i js acc best
    else if bhi ≤ j then (acc, best)
    else innerLoop blo bhi j2len i js
      (fun m => if m = j then j2lenNext j2len j else acc m)
      (bestStep j2len i best j)

/-- The outer `for i in range(alo, ahi)` loop of `find_longest_match`:
each iteration starts a fresh `newj2len = {}` and installs it for the next
iteration. -/
def outerLoop (b2jf : α → List Nat) (a : List α) (blo bhi : Nat) :
    List Nat → (Nat → Nat) → Nat × Nat × Nat → Nat × Nat × Nat
  | [], _, best => best
  | i :: is, j2len, best =>
    let js := match a[i]? with
      | some x => b2jf x
      | none => []
    let p := innerLoop blo bhi j2len i js (fun _ => 0) best
    outerLoop b2jf a blo bhi is p.1 p.2

/-- `a[i] == b[j]` on in-range indices (both out-of-range is `false`; the
live code paths only compare in-range indices). -/
def eltEq (a : List α) (i : Nat) (b : List α) (j : Nat) : Bool :=
  match a[i]?, b[j]? with
  | some x, some y => decide (x = y)
  | _, _ => false

/-- The leftward extension loop of `find_longest_match`
(`while besti > alo and bestj > blo and a[besti-1] == b[bestj-1]`), written
structurally on `besti`, which decreases by exactly 1 per iteration. -/
def extendLeft (a b : List α) (alo blo : Nat) :
    Nat → Nat → Nat → Nat × Nat × Nat
  | 0, bestj, bestsize => (0, bestj, bestsize)
  | besti + 1, bestj, bestsize =>
    if alo < besti + 1 ∧ blo < bestj ∧ eltEq a besti b (bestj - 1) = true then
      extendLeft a b alo blo besti (bestj - 1) (bestsize + 1)
    else (besti + 1, bestj, bestsize)

/-- The rightward extension loop of `find_longest_match`
(`while besti+bestsize < ahi and bestj+bestsize < bhi and a[..] == b[..]`),
run on the exact gas `ahi - (besti + bestsize)`: when the gas is 0 the
guard `besti + bestsize < ahi` is false, and each iteration consumes 1. -/
def extendRightAux (a b : List α) (ahi bhi besti bestj : Nat) :
    Nat → Nat → Nat
  | 0, bestsize => bestsize
  | gas + 1, bestsize =>
    if besti + bestsize < ahi ∧ bestj + bestsize < bhi ∧
        eltEq a (besti + bestsize) b (bestj + bestsize) = true then
      extendRightAux a b ahi bhi besti bestj gas (bestsize + 1)
    else bestsize

def extendRight (a b : List α) (ahi bhi besti bestj bestsize : Nat) : Nat :=
  extendRightAux a b ahi bhi besti bestj (ahi - (besti + bestsize)) bestsize

/-- difflib `SequenceMatcher.find_longest_match(alo, ahi, blo, bhi)` with
empty junk sets: the dynamic-programming loop, then the two live extension
loops (the two junk extension loops never run since `bjunk` is empty). -/
def findLongestMatch (a b : List α) (b2jf : α → List Nat)
    (alo ahi blo bhi : Nat) : Nat × Nat × Nat :=
  let best := outerLoop b2jf a blo bhi (List.range' alo (ahi - alo))
    (fun _ => 0) (alo, blo, 0)
  let e := extendLeft a b alo blo best.1 best.2.1 best.2.2
  let size := extendRight a b ahi bhi e.1 e.2.1 e.2.2
  (e.1, e.2.1, size)

/-- Geometric soundness of a best triple: either it is still the initial
`(alo, blo, 0)`, or it is a nonempty match lying inside the rectangle
`[alo, ahi) × [blo, bhi)`.  Needed for the termination (and the ordering)
of the `get_matching_blocks` recursion. -/
def BestInv (alo blo ahi bhi : Nat) (t : Nat × Nat × Nat) : Prop :=
  t = (alo, blo, 0) ∨
    (alo ≤ t.1 ∧ blo ≤ t.2.1 ∧ 1 ≤ t.2.2 ∧ t.1 + t.2.2 ≤ ahi ∧
      t.2.1 + t.2.2 ≤ bhi)

theorem innerLoop_inv (alo blo ahi bhi : Nat)
    (j2len : Nat → Nat) (i : Nat)
    (hia : alo ≤ i) (hib : i < ahi)
    (hj1 : ∀ m, j2len m + alo ≤ i) (hj2 : ∀ m, j2len m ≤ m + 1 - blo) :
    ∀ (js : List Nat) (acc : Nat → Nat) (best : Nat × Nat × Nat),
      (∀ m, acc m + alo ≤ i + 1) → (∀ m, acc m ≤ m + 1 - blo) →
      BestInv alo blo ahi bhi best →
      BestInv alo blo ahi bhi ((innerLoop blo bhi j2len i js acc best).2) ∧
      (∀ m, (innerLoop blo bhi j2len i js acc best).1 m + alo ≤ i + 1) ∧
      (∀ m, (innerLoop blo bhi j2len i js acc best).1 m ≤ m + 1 - blo) := by
  intro js
  induction js with
  | nil =>
    intro acc best ha1 ha2 hb
    exact ⟨hb, ha1, ha2⟩
  | cons j js ih =>
    intro acc best ha1 ha2 hb
    by_cases h1 : j < blo
    · simpa [innerLoop, h1] using ih acc best ha1 ha2 hb
    · by_cases h2 : bhi ≤ j
      · simpa [innerLoop, h1, h2] using ⟨hb, ha1, ha2⟩
      · have hk1 : j2lenNext j2len j + alo ≤ i + 1 := by
          unfold j2lenNext
          by_cases hj0 : j = 0
          · rw [if_pos hj0]
            omega
          · have := hj1 (j - 1)
            rw [if_neg hj0]
            omega
        have hk2 : j2lenNext j2len j + blo ≤ j + 1 := by
          unfold j2lenNext
          by_cases hj0 : j = 0
          · rw [if_pos hj0]
            omega
          · have := hj2 (j - 1)
            rw [if_neg hj0]
            omega
        have hk0 : 1 ≤ j2lenNext j2len j := by
          unfold j2lenNext
          omega
        have hstep : BestInv alo blo ahi bhi (bestStep j2len i best j) := by
          unfold bestStep
          by_cases hlt : best.2.2 < j2lenNext j2len j
          · rw [if_pos hlt]
            right
            dsimp only
            omega
          · rwa [if_neg hlt]
        have hacc1 : ∀ m,
            (fun m => if m = j then j2lenNext j2len j else acc m) m + alo
              ≤ i + 1 := by
          intro m
          dsimp only
          by_cases hm : m = j
          · rw [if_pos hm]
            exact hk1
          · rw [if_neg hm]
            exact ha1 m
        have hacc2 : ∀ m,
            (fun m => if m = j then j2lenNext j2len j else acc m) m
              ≤ m + 1 - blo := by
          intro m
          dsimp only
          by_cases hm : m = j
          · rw [if_pos hm]
            subst hm
            omega
          · rw [if_neg hm]
            exact ha2 m
        simpa [innerLoop, h1, h2] using
          ih _ (bestStep j2len i best j) hacc1 hacc2 hstep

theorem outerLoop_inv (b2jf : α → List Nat)
    (a : List α) (alo blo ahi bhi : Nat) :
    ∀ (n start : Nat) (j2len : Nat → Nat) (best : Nat × Nat × Nat),
      alo ≤ start → start + n ≤ ahi →
      (∀ m, j2len m + alo ≤ start) → (∀ m, j2len m ≤ m + 1 - blo) →
      BestInv alo blo ahi bhi best →
      BestInv alo blo ahi bhi
        (outerLoop b2jf a blo bhi (List.range' start n) j2len best) := by
  intro n
  induction n with
  | zero =>
    intro start j2len best _ _ _ _ hb
    simpa [outerLoop] using hb
  | succ n ih =>
    intro start j2len best h1 h2 hj1 hj2 hb
    rw [List.range'_succ]
    have hstep := innerLoop_inv alo blo ahi bhi j2len start h1 (by omega)
      hj1 hj2
      (match a[start]? with | some x => b2jf x | none => []) (fun _ => 0) best
      (by intro m; show 0 + alo ≤ start + 1; omega)
      (by intro m; exact Nat.zero_le _) hb
    simp only [outerLoop]
    exact ih (start + 1) _ _ (by omega) (by omega) hstep.2.1 hstep.2.2 hstep.1

theorem extendLeft_inv (a b : List α)
    (alo blo ahi bhi : Nat) :
    ∀ (besti bestj bestsize : Nat),
      BestInv alo blo ahi bhi (besti, bestj, bestsize) →
      BestInv alo blo ahi bhi (extendLeft a b alo blo besti bestj bestsize) := by
  intro besti
  induction besti with
  | zero =>
    intro bestj bestsize hb
    simpa [extendLeft] using hb
  | succ besti ih =>
    intro bestj bestsize hb
    by_cases hg : alo < besti + 1 ∧ blo < bestj ∧ eltEq a besti b (bestj - 1) = true
    · rw [extendLeft, if_pos hg]
      refine ih (bestj - 1) (bestsize + 1) ?_
      obtain ⟨hga, hgb, -⟩ := hg
      rcases hb with hinit | hgood
      · rw [Prod.mk.injEq, Prod.mk.injEq] at hinit
        omega
      · right
        simp only at hgood ⊢
        omega
    · rwa [extendLeft, if_neg hg]

theorem extendRightAux_le (a b : List α)
    (ahi bhi besti bestj : Nat) :
    ∀ (gas bestsize : Nat),
      bestsize = extendRightAux a b ahi bhi besti bestj gas bestsize ∨
      (bestsize < extendRightAux a b ahi bhi besti bestj gas bestsize ∧
        besti + extendRightAux a b ahi bhi besti bestj gas bestsize ≤ ahi ∧
        bestj + extendRightAux a b ahi bhi besti bestj gas bestsize ≤ bhi) := by
  intro gas
  induction gas with
  | zero => intro bestsize; left; rfl
  | succ gas ih =>
    intro bestsize
    by_cases hg : besti + bestsize < ahi ∧ bestj + bestsize < bhi ∧
        eltEq a (besti + bestsize) b (bestj + bestsize) = true
    · rw [extendRightAux, if_pos hg]
      obtain ⟨hga, hgb, -⟩ := hg
      rcases ih (bestsize + 1) with heq | hlt
      · right
        omega
      · right
        omega
    · rw [extendRightAux, if_neg hg]
      left; rfl

theorem extendBoth_inv (a b : List α) (alo blo ahi bhi : Nat)
    (t : Nat × Nat × Nat) (hb : BestInv alo blo ahi bhi t) :
    BestInv alo blo ahi bhi
      ((extendLeft a b alo blo t.1 t.2.1 t.2.2).1,
       (extendLeft a b alo blo t.1 t.2.1 t.2.2).2.1,
       extendRight a b ahi bhi (extendLeft a b alo blo t.1 t.2.1 t.2.2).1
         (extendLeft a b alo blo t.1 t.2.1 t.2.2).2.1
         (extendLeft a b alo blo t.1 t.2.1 t.2.2).2.2) := by
  have he : BestInv alo blo ahi bhi (extendLeft a b alo blo t.1 t.2.1 t.2.2) :=
    extendLeft_inv a b alo blo ahi bhi t.1 t.2.1 t.2.2 (by
      have : (t.1, t.2.1, t.2.2) = t := rfl
      rwa [this])
  generalize hE : extendLeft a b alo blo t.1 t.2.1 t.2.2 = e at *
  unfold extendRight
  rcases extendRightAux_le a b ahi bhi e.1 e.2.1 (ahi - (e.1 + e.2.2)) e.2.2
    with heq | hlt
  · rw [← heq]
    have : (e.1, e.2.1, e.2.2) = e := rfl
    rwa [this]
  · rcases he with hinit | hgood
    · right
      have h1 : e.1 = alo := by rw [hinit]
      have h2 : e.2.1 = blo := by rw [hinit]
      simp only
      omega
    · right
      simp only at hgood ⊢
      omega

theorem findLongestMatch_inv (a b : List α)
    (b2jf : α → List Nat) (alo ahi blo bhi : Nat) :
    BestInv alo blo ahi bhi (findLongestMatch a b b2jf alo ahi blo bhi) := by
  have hout : BestInv alo blo ahi bhi
      (outerLoop b2jf a blo bhi (List.range' alo (ahi - alo))
        (fun _ => 0) (alo, blo, 0)) := by
    by_cases hao : alo ≤ ahi
    · exact outerLoop_inv b2jf a alo blo ahi bhi (ahi - alo) alo (fun _ => 0)
        (alo, blo, 0) le_rfl (by omega) (by intro m; show 0 + alo ≤ alo; omega)
        (by intro m; exact Nat.zero_le _) (Or.inl rfl)
    · have h0 : ahi - alo = 0 := by omega
      rw [h0]
      exact Or.inl rfl
  exact extendBoth_inv a b alo blo ahi bhi _ hout

/-- Positivity form of the invariant: a returned match of nonzero size lies
inside the rectangle. -/
theorem findLongestMatch_pos (a b : List α)
    (b2jf : α → List Nat) (alo ahi blo bhi : Nat)
    (h : (findLongestMatch a b b2jf alo ahi blo bhi).2.2 ≠ 0) :
    alo ≤ (findLongestMatch a b b2jf alo ahi blo bhi).1 ∧
    blo ≤ (findLongestMatch a b b2jf alo ahi blo bhi).2.1 ∧
    1 ≤ (findLongestMatch a b b2jf alo ahi blo bhi).2.2 ∧
    (findLongestMatch a b b2jf alo ahi blo bhi).1 +
      (findLongestMatch a b b2jf alo ahi blo bhi).2.2 ≤ ahi ∧
    (findLongestMatch a b b2jf alo ahi blo bhi).2.1 +
      (findLongestMatch a b b2jf alo ahi blo bhi).2.2 ≤ bhi := by
  rcases findLongestMatch_inv a b b2jf alo ahi blo bhi with hinit | hgood
  · exact absurd (by rw [hinit]) h
  · exact ⟨hgood.1, hgood.2.1, hgood.2.2.1, hgood.2.2.2.1, hgood.2.2.2.2⟩

/-- The recursion of difflib `get_matching_blocks`: find the longest match
in the rectangle, then recurse on the sub-rectangle left-below and the
sub-rectangle right-above the match.  difflib drives the same recursion
with an explicit stack and sorts the collected blocks afterwards; the
in-order traversal here produces the same sorted multiset of blocks. -/
def matchingBlocks (a b : List α) (b2jf : α → List Nat)
    (alo ahi blo bhi : Nat) : List (Nat × Nat × Nat) :=
  let m := findLongestMatch a b b2jf alo ahi blo bhi
  if hk : m.2.2 = 0 then []
  else
    (if h1 : alo < m.1 ∧ blo < m.2.1 then
      matchingBlocks a b b2jf alo m.1 blo m.2.1 else []) ++
    [m] ++
    (if h2 : m.1 + m.2.2 < ahi ∧ m.2.1 + m.2.2 < bhi then
      matchingBlocks a b b2jf (m.1 + m.2.2) ahi (m.2.1 + m.2.2) bhi else [])
termination_by ahi - alo
decreasing_by
  · have hp := findLongestMatch_pos a b b2jf alo ahi blo bhi hk
    omega
  · have hp := findLongestMatch_pos a b b2jf alo ahi blo bhi hk
    omega

/-- Lexicographic order on `(i, j, size)` triples: Python `list.sort()` on
3-tuples. -/
def blockLE (x y : Nat × Nat × Nat) : Bool :=
  decide (x.1 < y.1 ∨ (x.1 = y.1 ∧
    (x.2.1 < y.2.1 ∨ (x.2.1 = y.2.1 ∧ x.2.2 ≤ y.2.2))))

def sortedInsert (x : Nat × Nat × Nat) :
    List (Nat × Nat × Nat) → List (Nat × Nat × Nat)
  | [] => [x]
  | y :: ys => if blockLE x y then x :: y :: ys else y :: sortedInsert x ys

/-- `matching_blocks.sort()`: an insertion sort by the lexicographic tuple
order (the traversal above is already sorted, so this is the identity on the
live paths — proved below). -/
def sortBlocks (l : List (Nat × Nat × Nat)) : List (Nat × Nat × Nat) :=
  l.foldr sortedInsert []

/-- The adjacent-block collapsing loop of `get_matching_blocks`: a running
triple `(i1, j1, k1)` absorbs each exactly-adjacent block
(`i1 + k1 == i2 and j1 + k1 == j2`) and is emitted (when nonempty) whenever a
non-adjacent block arrives, starting from `(0, 0, 0)`. -/
def collapseGo : Nat × Nat × Nat → List (Nat × Nat × Nat) → List (Nat × Nat × Nat)
  | (i1, j1, k1), [] => if k1 ≠ 0 then [(i1, j1, k1)] else []
  | (i1, j1, k1), (i2, j2, k2) :: rest =>
    if i1 + k1 = i2 ∧ j1 + k1 = j2 then collapseGo (i1, j1, k1 + k2) rest
    else (if k1 ≠ 0 then [(i1, j1, k1)] else []) ++ collapseGo (i2, j2, k2) rest

/-- difflib `get_matching_blocks`: recursive block collection over the full
rectangle, sort, collapse adjacent blocks, and append the sentinel
`(len(a), len(b), 0)`. -/
def getMatchingBlocks (a b : List α) : List (Nat × Nat × Nat) :=
  collapseGo (0, 0, 0)
    (sortBlocks (matchingBlocks a b (b2j b) 0 a.length 0 b.length))
    ++ [(a.length, b.length, 0)]

inductive Tag where
  | equal
  | insert
  | delete
  | replace
deriving DecidableEq, Repr

structure Opcode where
  tag : Tag
  i1 : Nat
  i2 : Nat
  j1 : Nat
  j2 : Nat
deriving DecidableEq, Repr

/-- difflib `get_opcodes`, walking the matching blocks with running output
cursors `i, j`: before each block a non-equal opcode covers the gap
(`replace` when both gaps are nonempty, else `delete`/`insert`), and each
block of nonzero size yields an `equal` opcode. -/
def getOpcodesGo : Nat → Nat → List (Nat × Nat × Nat) → List Opcode
  | _, _, [] => []
  | i, j, (ai, bj, size) :: rest =>
    (if i < ai ∧ j < bj then [⟨Tag.replace, i, ai, j, bj⟩]
     else if i < ai then [⟨Tag.delete, i, ai, j, bj⟩]
     else if j < bj then [⟨Tag.insert, i, ai, j, bj⟩]
     else []) ++
    (if size ≠ 0 then [⟨Tag.equal, ai, ai + size, bj, bj + size⟩] else []) ++
    getOpcodesGo (ai + size) (bj + size) rest

/-- `SequenceMatcher(None, a, b, autojunk=False).get_opcodes()`. -/
def getOpcodes (a b : List α) : List Opcode :=
  getOpcodesGo 0 0 (getMatchingBlocks a b)

end Matcher

/-- The four per-side mark lists of a `DiffResult` (`added`, `deleted`,
`changed`, `blank` output-row indices). -/
structure Marks where
  added : List Nat
  deleted : List Nat
  changed : List Nat
  blank : List Nat
deriving DecidableEq, Repr

/-- The Diff Model built by `compute_diff`. -/
structure DiffResult where
  left_lines : List String
  right_lines : List String
  left_marks : Marks
  right_marks : Marks
  diff_blocks : List (Nat × Nat)
  changed_pairs : List (Nat × Nat × String × String)
deriving DecidableEq, Repr

/-- The opcode-walking loop of `compute_diff`, with output cursors `li, ri`.
Each list case emits what the corresponding Python loop iteration appends,
in front of the remainder's output; `xs.getD n ""` is in-range Python
indexing `xs[n]`. -/
def diffGo (left right : List String) : List Opcode → Nat → Nat → DiffResult
  | [], _, _ => ⟨[], [], ⟨[], [], [], []⟩, ⟨[], [], [], []⟩, [], []⟩
  | ⟨Tag.equal, i1, i2, j1, _j2⟩ :: rest, li, ri =>
    let n := i2 - i1
    let r := diffGo left right rest (li + n) (ri + n)
    { r with
      left_lines := (List.range n).map (fun k => left.getD (i1 + k) "") ++
        r.left_lines
      right_lines := (List.range n).map (fun k => right.getD (j1 + k) "") ++
        r.right_lines }
  | ⟨Tag.insert, _i1, _i2, j1, j2⟩ :: rest, li, ri =>
    let n := j2 - j1
    let r := diffGo left right rest (li + n) (ri + n)
    { r with
      left_lines := List.replicate n BLANK_FILL ++ r.left_lines
      right_lines := (List.range n).map (fun k => right.getD (j1 + k) "") ++
        r.right_lines
      left_marks := { r.left_marks with
        blank := (List.range n).map (li + ·) ++ r.left_marks.blank }
      right_marks := { r.right_marks with
        added := (List.range n).map (ri + ·) ++ r.right_marks.added }
      diff_blocks := (li, ri) :: r.diff_blocks }
  | ⟨Tag.delete, i1, i2, _j1, _j2⟩ :: rest, li, ri =>
    let n := i2 - i1
    let r := diffGo left right rest (li + n) (ri + n)
    { r with
      left_lines := (List.range n).map (fun k => left.getD (i1 + k) "") ++
        r.left_lines
      right_lines := List.replicate n BLANK_FILL ++ r.right_lines
      left_marks := { r.left_marks with
        deleted := (List.range n).map (li + ·) ++ r.left_marks.deleted }
      right_marks := { r.right_marks with
        blank := (List.range n).map (ri + ·) ++ r.right_marks.blank }
      diff_blocks := (li, ri) :: r.diff_blocks }
  | ⟨Tag.replace, i1, i2, j1, j2⟩ :: rest, li, ri =>
    let lcount := i2 - i1
    let rcount := j2 - j1
    let n := max lcount rcount
    let r := diffGo left right rest (li + n) (ri + n)
    let lline := fun k => if k < lcount then left.getD (i1 + k) "" else BLANK_FILL
    let rline := fun k => if k < rcount then right.getD (j1 + k) "" else BLANK_FILL
    { left_lines := (List.range n).map lline ++ r.left_lines,
      right_lines := (List.range n).map rline ++ r.right_lines,
      left_marks := {
        added := r.left_marks.added,
        deleted := ((List.range n).filter
          (fun k => decide (k < lcount ∧ ¬ k < rcount))).map (li + ·) ++
          r.left_marks.deleted,
        changed := ((List.range n).filter
          (fun k => decide (k < lcount ∧ k < rcount))).map (li + ·) ++
          r.left_marks.changed,
        blank := ((List.range n).filter
          (fun k => decide (¬ k < lcount))).map (li + ·) ++
          r.left_marks.blank },
      right_marks := {
        added := ((List.range n).filter
          (fun k => decide (¬ k < lcount))).map (ri + ·) ++
          r.right_marks.added,
        deleted := r.right_marks.deleted,
        changed := ((List.range n).filter
          (fun k => decide (k < lcount ∧ k < rcount))).map (ri + ·) ++
          r.right_marks.changed,
        blank := ((List.range n).filter
          (fun k => decide (k < lcount ∧ ¬ k < rcount))).map (ri + ·) ++
          r.right_marks.blank },
      diff_blocks := (li, ri) :: r.diff_blocks,
      changed_pairs := ((List.range n).filter
        (fun k => decide (k < lcount ∧ k < rcount))).map
        (fun k => (li + k, ri + k, lline k, rline k)) ++ r.changed_pairs }

/-- The plugin's alignment engine `compute_diff(left_lines, right_lines)`. -/
def compute_diff (left right : List String) : DiffResult :=
  diffGo left right (getOpcodes left right) 0 0

/-- `CompareSession`, restricted to the navigation-relevant state (the diff's
`diff_blocks` and the cursor `block_index`; the window/view handles are
external host objects).  `block_index` is a Python int, so it is modelled as
`Int` (Python `%` on a positive modulus is `Int.emod`). -/
structure CompareSession where
  diff_blocks : List (Nat × Nat)
  block_index : Int
deriving DecidableEq, Repr

def current_block (s : CompareSession) : Option (Nat × Nat) :=
  if s.diff_blocks.isEmpty then none
  else s.diff_blocks[s.block_index.toNat]?

/-- `CompareSession.next_block`: `None` on an empty block list, otherwise
advance the cursor modulo the block count and return the current block. -/
def next_block (s : CompareSession) : Option (Nat × Nat) × CompareSession :=
  if s.diff_blocks.isEmpty then (none, s)
  else
    let s2 := { s with
      block_index := (s.block_index + 1) % (s.diff_blocks.length : Int) }
    (current_block s2, s2)

/-- `CompareSession.prev_block`: `None` on an empty block list, otherwise
retreat the cursor modulo the block count and return the current block. -/
def prev_block (s : CompareSession) : Option (Nat × Nat) × CompareSession :=
  if s.diff_blocks.isEmpty then (none, s)
  else
    let s2 := { s with
      block_index := (s.block_index - 1) % (s.diff_blocks.length : Int) }
    (current_block s2, s2)

/-- What `_close_session` needs of a registered session: its two registry
keys (`source_window.id()` and the compare `window.id()`) and the liveness
of its two scratch display views. -/
structure SessionRef where
  src : Nat
  disp : Nat
  leftAlive : Bool
  rightAlive : Bool
deriving DecidableEq, Repr

/-- The `_sessions` dict, as an association list with unique keys. -/
def rlookup : List (Nat × SessionRef) → Nat → Option SessionRef
  | [], _ => none
  | (k, s) :: rest, key => if k = key then some s else rlookup rest key

/-- `_sessions.pop(key, None)` (the removal part): dict keys are unique, so
removing every entry with the key is dict deletion. -/
def rpop (reg : List (Nat × SessionRef)) (key : Nat) : List (Nat × SessionRef) :=
  reg.filter fun p => decide (p.1 ≠ key)

/-- Closing a display view can raise when the surface is already gone. -/
def closeViewE (alive : Bool) : Except String Bool :=
  if alive then Except.ok false else Except.error "view already gone"

/-- The `try: v.close() except Exception: pass` wrapper of `_close_session`:
a failure is swallowed and the view keeps its state. -/
def tryCloseView (alive : Bool) : Bool :=
  match closeViewE alive with
  | Except.ok b => b
  | Except.error _ => alive

/-- `_close_session(window_id, close_views=True)`: pop the entry under the
given key; if a session was there, pop its source-window key and its
compare-window key as well, then close both display views under the
exception guard.  Returns the new registry and, when a session was found,
the two views' final liveness. -/
def close_session (wid : Nat) (reg : List (Nat × SessionRef)) :
    List (Nat × SessionRef) × Option (Bool × Bool) :=
  match rlookup reg wid with
  | none => (rpop reg wid, none)
  | some s =>
    (rpop (rpop (rpop reg wid) s.src) s.disp,
      some (tryCloseView s.leftAlive, tryCloseView s.rightAlive))

/-- Which display surface of a session an event originated from. -/
inductive Side where
  | left
  | right
deriving DecidableEq, Repr

/-- The synchroniser state for one session: the two surfaces' current scroll
offsets, their last-known offsets (`_last_vp`, absent key ↦ `none`), and
their membership in the re-entrancy guard set `_syncing`.  Scroll offsets
are only copied and compared for equality, so the host's float pair is
modelled as `Int × Int`. -/
structure SyncState where
  vpL : Int × Int
  vpR : Int × Int
  lastL : Option (Int × Int)
  lastR : Option (Int × Int)
  syncL : Bool
  syncR : Bool
deriving DecidableEq, Repr

/-- `_sync_peer(source_view)` for a source that is one of the session's two
display views: skip when the source is in `_syncing`; otherwise add the peer
to `_syncing`, copy the source's viewport position onto it, and discard the
peer from `_syncing` (the `finally` discard leaves the peer unguarded). -/
def sync_peer : Side → SyncState → SyncState
  | Side.left, st =>
    if st.syncL then st else { st with vpR := st.vpL, syncR := false }
  | Side.right, st =>
    if st.syncR then st else { st with vpL := st.vpR, syncL := false }

/-- `l_moved` / `r_moved` of `_fast_poll_tick`:
`prev is not None and (cur[0] != prev[0] or cur[1] != prev[1])`. -/
def movedB : Option (Int × Int) → Int × Int → Bool
  | some p, cur => decide (cur.1 ≠ p.1 ∨ cur.2 ≠ p.2)
  | none, _ => false

/-- One `_fast_poll_tick` pass over one session: whichever side moved since
its last-known offset (left checked first) propagates to the other under the
re-entrancy guard, recording the written offset; then both last-known
offsets are refreshed from the current positions. -/
def fast_poll_tick (st : SyncState) : SyncState :=
  let lp := st.vpL
  let rp := st.vpR
  let st1 :=
    if movedB st.lastL lp = true ∧ st.syncL = false then
      { st with vpR := lp, syncR := false, lastR := some lp }
    else if movedB st.lastR rp = true ∧ st.syncR = false then
      { st with vpL := rp, syncL := false, lastL := some rp }
    else st
  { st1 with lastL := some st1.vpL, lastR := some st1.vpR }

/-- `_apply_inline_highlights`: `left_starts`/`right_starts` are the
starting character offsets of the display views' line regions
(`regs[i].begin()`), and the result is the pair of inline-highlight span
lists.  Pairs whose row index is outside either view's line count are
skipped; for each in-range pair, the non-`equal` character-level opcodes of
`SequenceMatcher(None, ltext, rtext, autojunk=False)` contribute a left span
exactly when their left range is nonempty and a right span exactly when
their right range is nonempty. -/
def apply_inline_highlights (left_starts right_starts : List Nat) :
    List (Nat × Nat × String × String) → List (Nat × Nat) × List (Nat × Nat)
  | [] => ([], [])
  | (li, ri, lt, rt) :: rest =>
    let r := apply_inline_highlights left_starts right_starts rest
    if li < left_starts.length ∧ ri < right_starts.length then
      ((((getOpcodes lt.toList rt.toList).filter
            (fun op => decide (op.tag ≠ Tag.equal ∧ op.i1 < op.i2))).map
          (fun op => (left_starts.getD li 0 + op.i1,
            left_starts.getD li 0 + op.i2))) ++ r.1,
       (((getOpcodes lt.toList rt.toList).filter
            (fun op => decide (op.tag ≠ Tag.equal ∧ op.j1 < op.j2))).map
          (fun op => (right_starts.getD ri 0 + op.j1,
            right_starts.getD ri 0 + op.j2))) ++ r.2)
    else r

/-- Delete from a line list (whose first row has index `start`) exactly the
rows whose index is in `marked`. -/
def dropMarkedFrom (marked : List Nat) : Nat → List String → List String
  | _, [] => []
  | start, x :: xs =>
    if start ∈ marked then dropMarkedFrom marked (start + 1) xs
    else x :: dropMarkedFrom marked (start + 1) xs

/-- Delete from `lines` exactly the rows whose (0-based) index is in
`marked`. -/
def removeMarked (lines : List String) (marked : List Nat) : List String :=
  dropMarkedFrom marked 0 lines

/-- The per-tag range facts that `get_opcodes` guarantees for each emitted
opcode. -/
def TagOK : Opcode → Prop
  | ⟨Tag.equal, i1, i2, j1, j2⟩ => i1 ≤ i2 ∧ i2 - i1 = j2 - j1 ∧ j1 ≤ j2
  | ⟨Tag.insert, i1, i2, j1, j2⟩ => i1 = i2 ∧ j1 < j2
  | ⟨Tag.delete, i1, i2, j1, j2⟩ => i1 < i2 ∧ j1 = j2
  | ⟨Tag.replace, i1, i2, j1, j2⟩ => i1 < i2 ∧ j1 < j2

/-- The opcode partition invariant: walked from cursors `(i, j)`, the
opcodes tile both index ranges contiguously and end exactly at `(e1, e2)`. -/
def OpChain : Nat → Nat → List Opcode → Nat → Nat → Prop
  | i, j, [], e1, e2 => i = e1 ∧ j = e2
  | i, j, op :: rest, e1, e2 =>
    op.i1 = i ∧ op.j1 = j ∧ TagOK op ∧ OpChain op.i2 op.j2 rest e1 e2

/-- Matching blocks in staircase position: each block of size ≥ 1 starts at
or after the running cursor and the final cursor is at most `(e1, e2)`. -/
def ChainedLE : Nat → Nat → List (Nat × Nat × Nat) → Nat → Nat → Prop
  | i, j, [], e1, e2 => i ≤ e1 ∧ j ≤ e2
  | i, j, (bi, bj, bk) :: rest, e1, e2 =>
    i ≤ bi ∧ j ≤ bj ∧ 1 ≤ bk ∧ ChainedLE (bi + bk) (bj + bk) rest e1 e2

/-- Every member of the list is at least `n`. -/
def AllGE (l : List Nat) (n : Nat) : Prop := ∀ m ∈ l, n ≤ m

/-- No member of the first list is a member of the second. -/
def Disj (l1 l2 : List Nat) : Prop := ∀ m, m ∈ l1 → m ∉ l2

/-- The four mark lists of one side are pairwise disjoint. -/
def MarksDisjoint (m : Marks) : Prop :=
  Disj m.added m.deleted ∧ Disj m.added m.changed ∧ Disj m.added m.blank ∧
  Disj m.deleted m.changed ∧ Disj m.deleted m.blank ∧ Disj m.changed m.blank

theorem chainedLE_weaken : ∀ (l : List (Nat × Nat × Nat)) {i j i2 j2 e1 e2 : Nat},
    i2 ≤ i → j2 ≤ j → ChainedLE i j l e1 e2 → ChainedLE i2 j2 l e1 e2 := by
  intro l
  cases l with
  | nil =>
    intro i j i2 j2 e1 e2 h1 h2 h
    obtain ⟨ha, hb⟩ := h
    exact ⟨by omega, by omega⟩
  | cons hd tl =>
    obtain ⟨bi, bj, bk⟩ := hd
    intro i j i2 j2 e1 e2 h1 h2 h
    obtain ⟨ha, hb, hc, hrest⟩ := h
    exact ⟨by omega, by omega, hc, hrest⟩

theorem chainedLE_append : ∀ (l1 : List (Nat × Nat × Nat))
    {l2 : List (Nat × Nat × Nat)} {i j m1 m2 e1 e2 : Nat},
    ChainedLE i j l1 m1 m2 → ChainedLE m1 m2 l2 e1 e2 →
    ChainedLE i j (l1 ++ l2) e1 e2 := by
  intro l1
  induction l1 with
  | nil =>
    intro l2 i j m1 m2 e1 e2 h1 h2
    exact chainedLE_weaken l2 h1.1 h1.2 h2
  | cons hd tl ih =>
    obtain ⟨bi, bj, bk⟩ := hd
    intro l2 i j m1 m2 e1 e2 h1 h2
    obtain ⟨ha, hb, hc, hrest⟩ := h1
    exact ⟨ha, hb, hc, ih hrest h2⟩

section MatcherTheorems

variable {α : Type} [DecidableEq α]

/-- The recursive block collection is a staircase inside its rectangle. -/
theorem matchingBlocks_chained (a b : List α) (b2jf : α → List Nat) :
    ∀ alo ahi blo bhi : Nat, alo ≤ ahi → blo ≤ bhi →
      ChainedLE alo blo (matchingBlocks a b b2jf alo ahi blo bhi) ahi bhi := by
  intro alo0 ahi0 blo0 bhi0
  induction alo0, ahi0, blo0, bhi0 using matchingBlocks.induct a b b2jf with
  | case1 alo ahi blo bhi m hk =>
    intro hao hbo
    unfold matchingBlocks
    rw [dif_pos hk]
    exact ⟨hao, hbo⟩
  | case2 alo ahi blo bhi m hk ih1 ih2 =>
    intro hao hbo
    have hm : m = findLongestMatch a b b2jf alo ahi blo bhi := rfl
    have hp := findLongestMatch_pos a b b2jf alo ahi blo bhi (hm ▸ hk)
    rw [← hm] at hp
    unfold matchingBlocks
    rw [dif_neg (hm ▸ hk)]
    rw [← hm]
    have hL : ChainedLE alo blo
        (if h1 : alo < m.1 ∧ blo < m.2.1 then
          matchingBlocks a b b2jf alo m.1 blo m.2.1 else []) m.1 m.2.1 := by
      by_cases h1 : alo < m.1 ∧ blo < m.2.1
      · rw [dif_pos h1]
        exact ih1 hp.1 hp.2.1
      · rw [dif_neg h1]
        exact ⟨hp.1, hp.2.1⟩
    have hR : ChainedLE (m.1 + m.2.2) (m.2.1 + m.2.2)
        (if h2 : m.1 + m.2.2 < ahi ∧ m.2.1 + m.2.2 < bhi then
          matchingBlocks a b b2jf (m.1 + m.2.2) ahi (m.2.1 + m.2.2) bhi
        else []) ahi bhi := by
      by_cases h2 : m.1 + m.2.2 < ahi ∧ m.2.1 + m.2.2 < bhi
      · rw [dif_pos h2]
        exact ih2 (by omega) (by omega)
      · rw [dif_neg h2]
        exact ⟨hp.2.2.2.1, hp.2.2.2.2⟩
    rw [List.append_assoc]
    refine chainedLE_append _ hL ?_
    exact ⟨le_rfl, le_rfl, hp.2.2.1, hR⟩

end MatcherTheorems

/-- The in-order traversal is already sorted, so Python's
`matching_blocks.sort()` is the identity on it. -/
theorem sortBlocks_of_chained : ∀ (l : List (Nat × Nat × Nat)) (i j e1 e2 : Nat),
    ChainedLE i j l e1 e2 → sortBlocks l = l := by
  intro l
  induction l with
  | nil => intro i j e1 e2 _; rfl
  | cons hd tl ih =>
    obtain ⟨bi, bj, bk⟩ := hd
    intro i j e1 e2 h
    obtain ⟨h1, h2, h3, h4⟩ := h
    have htl : sortBlocks tl = tl := ih (bi + bk) (bj + bk) e1 e2 h4
    show sortedInsert (bi, bj, bk) (sortBlocks tl) = (bi, bj, bk) :: tl
    rw [htl]
    cases tl with
    | nil => rfl
    | cons y ys =>
      obtain ⟨yi, yj, yk⟩ := y
      obtain ⟨hy1, hy2, hy3, hy4⟩ := h4
      show (if blockLE (bi, bj, bk) (yi, yj, yk) then _ else _) = _
      rw [if_pos]
      unfold blockLE
      rw [decide_eq_true_iff]
      left
      omega

theorem collapseGo_chained : ∀ (l : List (Nat × Nat × Nat))
    (i1 j1 k1 e1 e2 : Nat),
    ChainedLE (i1 + k1) (j1 + k1) l e1 e2 →
    ChainedLE i1 j1 (collapseGo (i1, j1, k1) l) e1 e2 := by
  intro l
  induction l with
  | nil =>
    intro i1 j1 k1 e1 e2 h
    obtain ⟨h1, h2⟩ := h
    show ChainedLE i1 j1 (if k1 ≠ 0 then [(i1, j1, k1)] else []) e1 e2
    by_cases hk : k1 ≠ 0
    · rw [if_pos hk]
      exact ⟨le_rfl, le_rfl, by omega, h1, h2⟩
    · rw [if_neg hk]
      exact ⟨by omega, by omega⟩
  | cons hd tl ih =>
    obtain ⟨i2, j2, k2⟩ := hd
    intro i1 j1 k1 e1 e2 h
    obtain ⟨h1, h2, h3, h4⟩ := h
    show ChainedLE i1 j1
      (if i1 + k1 = i2 ∧ j1 + k1 = j2 then collapseGo (i1, j1, k1 + k2) tl
       else (if k1 ≠ 0 then [(i1, j1, k1)] else []) ++
         collapseGo (i2, j2, k2) tl) e1 e2
    by_cases hm : i1 + k1 = i2 ∧ j1 + k1 = j2
    · rw [if_pos hm]
      apply ih i1 j1 (k1 + k2)
      have ha : i1 + (k1 + k2) = i2 + k2 := by omega
      have hb : j1 + (k1 + k2) = j2 + k2 := by omega
      rw [ha, hb]
      exact h4
    · rw [if_neg hm]
      have hrest := ih i2 j2 k2 e1 e2 h4
      by_cases hk : k1 ≠ 0
      · rw [if_pos hk]
        show ChainedLE i1 j1 ((i1, j1, k1) :: collapseGo (i2, j2, k2) tl) e1 e2
        exact ⟨le_rfl, le_rfl, by omega, chainedLE_weaken _ h1 h2 hrest⟩
      · rw [if_neg hk]
        show ChainedLE i1 j1 ([] ++ collapseGo (i2, j2, k2) tl) e1 e2
        rw [List.nil_append]
        exact chainedLE_weaken _ (by omega) (by omega) hrest

/-- `get_opcodes` over a staircase block list (with the sentinel appended)
produces a contiguous opcode chain from the cursor to the sentinel. -/
theorem getOpcodesGo_opChain : ∀ (bs : List (Nat × Nat × Nat))
    (i j e1 e2 : Nat), ChainedLE i j bs e1 e2 →
    OpChain i j (getOpcodesGo i j (bs ++ [(e1, e2, 0)])) e1 e2 := by
  intro bs
  induction bs with
  | nil =>
    intro i j e1 e2 h
    obtain ⟨h1, h2⟩ := h
    show OpChain i j (getOpcodesGo i j [(e1, e2, 0)]) e1 e2
    have hz : ((0 : Nat) ≠ 0) = False := by simp
    simp only [getOpcodesGo, hz, if_false, List.append_nil]
    by_cases c1 : i < e1 ∧ j < e2
    · rw [if_pos c1]
      exact ⟨rfl, rfl, ⟨c1.1, c1.2⟩, rfl, rfl⟩
    · by_cases c2 : i < e1
      · rw [if_neg c1, if_pos c2]
        have hje : j = e2 := by
          by_contra hne
          exact c1 ⟨c2, by omega⟩
        exact ⟨rfl, rfl, ⟨c2, hje⟩, rfl, rfl⟩
      · by_cases c3 : j < e2
        · rw [if_neg c1, if_neg c2, if_pos c3]
          exact ⟨rfl, rfl, ⟨by omega, c3⟩, rfl, rfl⟩
        · rw [if_neg c1, if_neg c2, if_neg c3]
          exact ⟨by omega, by omega⟩
  | cons hd tl ih =>
    obtain ⟨bi, bj, bk⟩ := hd
    intro i j e1 e2 h
    obtain ⟨h1, h2, h3, h4⟩ := h
    have hrest := ih (bi + bk) (bj + bk) e1 e2 h4
    have hkne : (bk ≠ 0) = True := by simp; omega
    show OpChain i j (getOpcodesGo i j ((bi, bj, bk) :: (tl ++ [(e1, e2, 0)]))) e1 e2
    simp only [getOpcodesGo, hkne, if_true]
    have heq : OpChain bi bj
        ([(⟨Tag.equal, bi, bi + bk, bj, bj + bk⟩ : Opcode)] ++
          getOpcodesGo (bi + bk) (bj + bk) (tl ++ [(e1, e2, 0)])) e1 e2 := by
      exact ⟨rfl, rfl, ⟨by omega, by omega, by omega⟩, hrest⟩
    by_cases c1 : i < bi ∧ j < bj
    · rw [if_pos c1]
      exact ⟨rfl, rfl, ⟨c1.1, c1.2⟩, heq⟩
    · by_cases c2 : i < bi
      · rw [if_neg c1, if_pos c2]
        have hje : j = bj := by
          by_contra hne
          exact c1 ⟨c2, by omega⟩
        exact ⟨rfl, rfl, ⟨c2, hje⟩, heq⟩
      · by_cases c3 : j < bj
        · rw [if_neg c1, if_neg c2, if_pos c3]
          exact ⟨rfl, rfl, ⟨by omega, c3⟩, heq⟩
        · rw [if_neg c1, if_neg c2, if_neg c3]
          have hib : i = bi := by omega
          have hjb : j = bj := by omega
          subst hib; subst hjb
          simp only [List.nil_append]
          exact heq

section OpChainMain

variable {α : Type} [DecidableEq α]

/-- The opcode partition invariant holds for the real matcher pipeline. -/
theorem getOpcodes_opChain (a b : List α) :
    OpChain 0 0 (getOpcodes a b) a.length b.length := by
  unfold getOpcodes getMatchingBlocks
  have hmb := matchingBlocks_chained a b (b2j b) 0 a.length 0 b.length
    (Nat.zero_le _) (Nat.zero_le _)
  rw [sortBlocks_of_chained _ 0 0 a.length b.length hmb]
  exact getOpcodesGo_opChain _ 0 0 a.length b.length
    (collapseGo_chained _ 0 0 0 a.length b.length hmb)

end OpChainMain

theorem tagOK_le (op : Opcode) (h : TagOK op) :
    op.i1 ≤ op.i2 ∧ op.j1 ≤ op.j2 := by
  obtain ⟨tag, i1, i2, j1, j2⟩ := op
  cases tag <;> obtain ⟨h1, h2⟩ := h <;> constructor <;> simp only <;> omega

theorem opChain_le : ∀ (ops : List Opcode) (i j e1 e2 : Nat),
    OpChain i j ops e1 e2 → i ≤ e1 ∧ j ≤ e2 := by
  intro ops
  induction ops with
  | nil =>
    intro i j e1 e2 h
    obtain ⟨h1, h2⟩ := h
    omega
  | cons op rest ih =>
    intro i j e1 e2 h
    obtain ⟨hi1, hj1, htag, hchain⟩ := h
    have hle := tagOK_le op htag
    have := ih op.i2 op.j2 e1 e2 hchain
    omega

theorem allGE_append {l1 l2 : List Nat} {n : Nat}
    (h1 : AllGE l1 n) (h2 : AllGE l2 n) : AllGE (l1 ++ l2) n := by
  intro m hm
  rcases List.mem_append.mp hm with h | h
  · exact h1 m h
  · exact h2 m h

theorem allGE_weaken {l : List Nat} {n n2 : Nat}
    (h : n2 ≤ n) (ha : AllGE l n) : AllGE l n2 := by
  intro m hm
  exact le_trans h (ha m hm)

theorem allGE_map_add (f : List Nat) (s : Nat) : AllGE (f.map (s + ·)) s := by
  intro m hm
  obtain ⟨k, -, rfl⟩ := List.mem_map.mp hm
  omega

theorem bounded_filter_map {p : Nat → Bool} (s n : Nat) :
    ∀ m ∈ ((List.range n).filter p).map (s + ·), m < s + n := by
  intro m hm
  obtain ⟨k, hk, rfl⟩ := List.mem_map.mp hm
  have := List.mem_range.mp (List.mem_filter.mp hk).1
  omega

theorem bounded_range_map (s n : Nat) :
    ∀ m ∈ (List.range n).map (s + ·), m < s + n := by
  intro m hm
  obtain ⟨k, hk, rfl⟩ := List.mem_map.mp hm
  have := List.mem_range.mp hk
  omega

/-- C5 engine lemma: every branch of the opcode walk appends the same number
of rows to both outputs. -/
theorem diffGo_len (left right : List String) :
    ∀ (ops : List Opcode) (li ri : Nat),
      (diffGo left right ops li ri).left_lines.length =
      (diffGo left right ops li ri).right_lines.length := by
  intro ops
  induction ops with
  | nil => intro li ri; rfl
  | cons op rest ih =>
    obtain ⟨tag, i1, i2, j1, j2⟩ := op
    intro li ri
    cases tag <;>
      simp [diffGo, List.length_append, List.length_map, List.length_range,
        List.length_replicate, ih]

/-- Every mark index and anchor component emitted from cursor `(li, ri)` is
at least the cursor value. -/
theorem diffGo_lb (left right : List String) :
    ∀ (ops : List Opcode) (li ri : Nat),
      AllGE (diffGo left right ops li ri).left_marks.added li ∧
      AllGE (diffGo left right ops li ri).left_marks.deleted li ∧
      AllGE (diffGo left right ops li ri).left_marks.changed li ∧
      AllGE (diffGo left right ops li ri).left_marks.blank li ∧
      AllGE (diffGo left right ops li ri).right_marks.added ri ∧
      AllGE (diffGo left right ops li ri).right_marks.deleted ri ∧
      AllGE (diffGo left right ops li ri).right_marks.changed ri ∧
      AllGE (diffGo left right ops li ri).right_marks.blank ri ∧
      ∀ p ∈ (diffGo left right ops li ri).diff_blocks, li ≤ p.1 ∧ ri ≤ p.2 := by
  intro ops
  induction ops with
  | nil =>
    intro li ri
    refine ⟨?_, ?_, ?_, ?_, ?_, ?_, ?_, ?_, ?_⟩ <;>
      first
        | (intro m hm; exact absurd hm (List.not_mem_nil m))
        | (intro p hp; exact absurd hp (List.not_mem_nil p))
  | cons op rest ih =>
    obtain ⟨tag, i1, i2, j1, j2⟩ := op
    intro li ri
    cases tag with
    | equal =>
      obtain ⟨ha1, ha2, ha3, ha4, hb1, hb2, hb3, hb4, hbl⟩ :=
        ih (li + (i2 - i1)) (ri + (i2 - i1))
      simp only [diffGo]
      refine ⟨allGE_weaken (by omega) ha1, allGE_weaken (by omega) ha2,
        allGE_weaken (by omega) ha3, allGE_weaken (by omega) ha4,
        allGE_weaken (by omega) hb1, allGE_weaken (by omega) hb2,
        allGE_weaken (by omega) hb3, allGE_weaken (by omega) hb4, ?_⟩
      intro p hp
      have := hbl p hp
      omega
    | insert =>
      obtain ⟨ha1, ha2, ha3, ha4, hb1, hb2, hb3, hb4, hbl⟩ :=
        ih (li + (j2 - j1)) (ri + (j2 - j1))
      simp only [diffGo]
      refine ⟨allGE_weaken (by omega) ha1, allGE_weaken (by omega) ha2,
        allGE_weaken (by omega) ha3,
        allGE_append (allGE_map_add _ _) (allGE_weaken (by omega) ha4),
        allGE_append (allGE_map_add _ _) (allGE_weaken (by omega) hb1),
        allGE_weaken (by omega) hb2, allGE_weaken (by omega) hb3,
        allGE_weaken (by omega) hb4, ?_⟩
      intro p hp
      rcases List.mem_cons.mp hp with h | h
      · subst h; omega
      · have := hbl p h
        omega
    | delete =>
      obtain ⟨ha1, ha2, ha3, ha4, hb1, hb2, hb3, hb4, hbl⟩ :=
        ih (li + (i2 - i1)) (ri + (i2 - i1))
      simp only [diffGo]
      refine ⟨allGE_weaken (by omega) ha1,
        allGE_append (allGE_map_add _ _) (allGE_weaken (by omega) ha2),
        allGE_weaken (by omega) ha3, allGE_weaken (by omega) ha4,
        allGE_weaken (by omega) hb1, allGE_weaken (by omega) hb2,
        allGE_weaken (by omega) hb3,
        allGE_append (allGE_map_add _ _) (allGE_weaken (by omega) hb4), ?_⟩
      intro p hp
      rcases List.mem_cons.mp hp with h | h
      · subst h; omega
      · have := hbl p h
        omega
    | replace =>
      obtain ⟨ha1, ha2, ha3, ha4, hb1, hb2, hb3, hb4, hbl⟩ :=
        ih (li + max (i2 - i1) (j2 - j1)) (ri + max (i2 - i1) (j2 - j1))
      simp only [diffGo]
      refine ⟨allGE_weaken (by omega) ha1,
        allGE_append (allGE_map_add _ _) (allGE_weaken (by omega) ha2),
        allGE_append (allGE_map_add _ _) (allGE_weaken (by omega) ha3),
        allGE_append (allGE_map_add _ _) (allGE_weaken (by omega) ha4),
        allGE_append (allGE_map_add _ _) (allGE_weaken (by omega) hb1),
        allGE_weaken (by omega) hb2,
        allGE_append (allGE_map_add _ _) (allGE_weaken (by omega) hb3),
        allGE_append (allGE_map_add _ _) (allGE_weaken (by omega) hb4), ?_⟩
      intro p hp
      rcases List.mem_cons.mp hp with h | h
      · subst h; omega
      · have := hbl p h
        omega

/-- C2 engine lemma: the anchors are strictly increasing in both components,
because every non-equal opcode is productive (its walk advances both
cursors by at least one row). -/
theorem diffGo_blocks_lt (left right : List String) :
    ∀ (ops : List Opcode) (i j e1 e2 li ri : Nat), OpChain i j ops e1 e2 →
      List.Pairwise (fun p q : Nat × Nat => p.1 < q.1 ∧ p.2 < q.2)
        (diffGo left right ops li ri).diff_blocks := by
  intro ops
  induction ops with
  | nil =>
    intro i j e1 e2 li ri _
    exact List.Pairwise.nil
  | cons op rest ih =>
    obtain ⟨tag, i1, i2, j1, j2⟩ := op
    intro i j e1 e2 li ri h
    obtain ⟨hi1, hj1, htag, hchain⟩ := h
    cases tag with
    | equal =>
      simpa only [diffGo] using ih i2 j2 e1 e2 _ _ hchain
    | insert =>
      obtain ⟨hti, htj⟩ := htag
      simp only [diffGo]
      refine List.Pairwise.cons ?_ (ih i2 j2 e1 e2 _ _ hchain)
      intro p hp
      have := (diffGo_lb left right rest (li + (j2 - j1)) (ri + (j2 - j1))).2.2.2.2.2.2.2.2
        p hp
      constructor <;> simp only <;> omega
    | delete =>
      obtain ⟨hti, htj⟩ := htag
      simp only [diffGo]
      refine List.Pairwise.cons ?_ (ih i2 j2 e1 e2 _ _ hchain)
      intro p hp
      have := (diffGo_lb left right rest (li + (i2 - i1)) (ri + (i2 - i1))).2.2.2.2.2.2.2.2
        p hp
      constructor <;> simp only <;> omega
    | replace =>
      obtain ⟨hti, htj⟩ := htag
      simp only [diffGo]
      refine List.Pairwise.cons ?_ (ih i2 j2 e1 e2 _ _ hchain)
      intro p hp
      have := (diffGo_lb left right rest (li + max (i2 - i1) (j2 - j1))
        (ri + max (i2 - i1) (j2 - j1))).2.2.2.2.2.2.2.2 p hp
      constructor <;> simp only <;> omega

theorem disj_of_right_bound {l1 l2 : List Nat} {cut : Nat}
    (h1 : AllGE l1 cut) (h2 : ∀ m ∈ l2, m < cut) : Disj l1 l2 := by
  intro m hm hc
  have := h1 m hm
  have := h2 m hc
  omega

theorem disj_of_left_bound {l1 l2 : List Nat} {cut : Nat}
    (h1 : ∀ m ∈ l1, m < cut) (h2 : AllGE l2 cut) : Disj l1 l2 := by
  intro m hm hc
  have := h1 m hm
  have := h2 m hc
  omega

theorem disj_append_right {x a b : List Nat}
    (h1 : Disj x a) (h2 : Disj x b) : Disj x (a ++ b) := by
  intro m hm hc
  rcases List.mem_append.mp hc with h | h
  · exact h1 m hm h
  · exact h2 m hm h

theorem disj_append_left {a b y : List Nat}
    (h1 : Disj a y) (h2 : Disj b y) : Disj (a ++ b) y := by
  intro m hm hc
  rcases List.mem_append.mp hm with h | h
  · exact h1 m h hc
  · exact h2 m h hc

theorem disj_append_both {a1 r1 a2 r2 : List Nat} {cut : Nat}
    (haa : Disj a1 a2) (h1 : ∀ m ∈ a1, m < cut) (h2 : ∀ m ∈ a2, m < cut)
    (hr1 : AllGE r1 cut) (hr2 : AllGE r2 cut) (hrr : Disj r1 r2) :
    Disj (a1 ++ r1) (a2 ++ r2) := by
  intro m hm hc
  rcases List.mem_append.mp hm with h | h <;>
    rcases List.mem_append.mp hc with h2m | h2m
  · exact haa m h h2m
  · have := h1 m h
    have := hr2 m h2m
    omega
  · have := h2 m h2m
    have := hr1 m h
    omega
  · exact hrr m h h2m

/-- Marks emitted at the same cursor under mutually exclusive row predicates
are disjoint. -/
theorem disj_filter_map (s n : Nat) (p q : Nat → Bool)
    (h : ∀ k, ¬(p k = true ∧ q k = true)) :
    Disj (((List.range n).filter p).map (s + ·))
      (((List.range n).filter q).map (s + ·)) := by
  intro m hm hc
  obtain ⟨k, hk, rfl⟩ := List.mem_map.mp hm
  obtain ⟨k2, hk2, he⟩ := List.mem_map.mp hc
  have hkk : k2 = k := by omega
  subst hkk
  exact h k2 ⟨(List.mem_filter.mp hk).2, (List.mem_filter.mp hk2).2⟩

/-- C10 engine lemma: per side, the four mark lists stay pairwise disjoint,
because each walked row index is appended to at most one list and the rest
of the walk only emits indices at or beyond the advanced cursor. -/
theorem diffGo_disjoint (left right : List String) :
    ∀ (ops : List Opcode) (li ri : Nat),
      MarksDisjoint (diffGo left right ops li ri).left_marks ∧
      MarksDisjoint (diffGo left right ops li ri).right_marks := by
  intro ops
  induction ops with
  | nil =>
    intro li ri
    refine ⟨⟨?_, ?_, ?_, ?_, ?_, ?_⟩, ⟨?_, ?_, ?_, ?_, ?_, ?_⟩⟩ <;>
      (intro m hm; exact absurd hm (List.not_mem_nil m))
  | cons op rest ih =>
    obtain ⟨tag, i1, i2, j1, j2⟩ := op
    intro li ri
    cases tag with
    | equal =>
      simpa only [diffGo] using ih (li + (i2 - i1)) (ri + (i2 - i1))
    | insert =>
      obtain ⟨ha1, ha2, ha3, ha4, hb1, hb2, hb3, hb4, -⟩ :=
        diffGo_lb left right rest (li + (j2 - j1)) (ri + (j2 - j1))
      obtain ⟨⟨iad, iac, iab, idc, idb, icb⟩, ⟨jad, jac, jab, jdc, jdb, jcb⟩⟩ :=
        ih (li + (j2 - j1)) (ri + (j2 - j1))
      simp only [diffGo]
      exact ⟨⟨iad, iac,
        disj_append_right (disj_of_right_bound ha1 (bounded_range_map li _)) iab,
        idc,
        disj_append_right (disj_of_right_bound ha2 (bounded_range_map li _)) idb,
        disj_append_right (disj_of_right_bound ha3 (bounded_range_map li _)) icb⟩,
        ⟨disj_append_left (disj_of_left_bound (bounded_range_map ri _) hb2) jad,
        disj_append_left (disj_of_left_bound (bounded_range_map ri _) hb3) jac,
        disj_append_left (disj_of_left_bound (bounded_range_map ri _) hb4) jab,
        jdc, jdb, jcb⟩⟩
    | delete =>
      obtain ⟨ha1, ha2, ha3, ha4, hb1, hb2, hb3, hb4, -⟩ :=
        diffGo_lb left right rest (li + (i2 - i1)) (ri + (i2 - i1))
      obtain ⟨⟨iad, iac, iab, idc, idb, icb⟩, ⟨jad, jac, jab, jdc, jdb, jcb⟩⟩ :=
        ih (li + (i2 - i1)) (ri + (i2 - i1))
      simp only [diffGo]
      exact ⟨⟨disj_append_right (disj_of_right_bound ha1 (bounded_range_map li _)) iad,
        iac, iab,
        disj_append_left (disj_of_left_bound (bounded_range_map li _) ha3) idc,
        disj_append_left (disj_of_left_bound (bounded_range_map li _) ha4) idb,
        icb⟩,
        ⟨jad, jac,
        disj_append_right (disj_of_right_bound hb1 (bounded_range_map ri _)) jab,
        jdc,
        disj_append_right (disj_of_right_bound hb2 (bounded_range_map ri _)) jdb,
        disj_append_right (disj_of_right_bound hb3 (bounded_range_map ri _)) jcb⟩⟩
    | replace =>
      obtain ⟨ha1, ha2, ha3, ha4, hb1, hb2, hb3, hb4, -⟩ :=
        diffGo_lb left right rest (li + max (i2 - i1) (j2 - j1))
          (ri + max (i2 - i1) (j2 - j1))
      obtain ⟨⟨iad, iac, iab, idc, idb, icb⟩, ⟨jad, jac, jab, jdc, jdb, jcb⟩⟩ :=
        ih (li + max (i2 - i1) (j2 - j1)) (ri + max (i2 - i1) (j2 - j1))
      simp only [diffGo]
      refine ⟨⟨?_, ?_, ?_, ?_, ?_, ?_⟩, ⟨?_, ?_, ?_, ?_, ?_, ?_⟩⟩
      · exact disj_append_right
          (disj_of_right_bound ha1 (bounded_filter_map li _)) iad
      · exact disj_append_right
          (disj_of_right_bound ha1 (bounded_filter_map li _)) iac
      · exact disj_append_right
          (disj_of_right_bound ha1 (bounded_filter_map li _)) iab
      · refine disj_append_both ?_ (bounded_filter_map li _)
          (bounded_filter_map li _) ha2 ha3 idc
        refine disj_filter_map li _ _ _ ?_
        intro k hk
        rcases hk with ⟨hp, hq⟩
        rw [decide_eq_true_iff] at hp hq
        omega
      · refine disj_append_both ?_ (bounded_filter_map li _)
          (bounded_filter_map li _) ha2 ha4 idb
        refine disj_filter_map li _ _ _ ?_
        intro k hk
        rcases hk with ⟨hp, hq⟩
        rw [decide_eq_true_iff] at hp hq
        omega
      · refine disj_append_both ?_ (bounded_filter_map li _)
          (bounded_filter_map li _) ha3 ha4 icb
        refine disj_filter_map li _ _ _ ?_
        intro k hk
        rcases hk with ⟨hp, hq⟩
        rw [decide_eq_true_iff] at hp hq
        omega
      · exact disj_append_left
          (disj_of_left_bound (bounded_filter_map ri _) hb2) jad
      · refine disj_append_both ?_ (bounded_filter_map ri _)
          (bounded_filter_map ri _) hb1 hb3 jac
        refine disj_filter_map ri _ _ _ ?_
        intro k hk
        rcases hk with ⟨hp, hq⟩
        rw [decide_eq_true_iff] at hp hq
        omega
      · refine disj_append_both ?_ (bounded_filter_map ri _)
          (bounded_filter_map ri _) hb1 hb4 jab
        refine disj_filter_map ri _ _ _ ?_
        intro k hk
        rcases hk with ⟨hp, hq⟩
        rw [decide_eq_true_iff] at hp hq
        omega
      · exact disj_append_right
          (disj_of_right_bound hb2 (bounded_filter_map ri _)) jdc
      · exact disj_append_right
          (disj_of_right_bound hb2 (bounded_filter_map ri _)) jdb
      · refine disj_append_both ?_ (bounded_filter_map ri _)
          (bounded_filter_map ri _) hb3 hb4 jcb
        refine disj_filter_map ri _ _ _ ?_
        intro k hk
        rcases hk with ⟨hp, hq⟩
        rw [decide_eq_true_iff] at hp hq
        omega

theorem dropMarkedFrom_append (m : List Nat) :
    ∀ (l1 l2 : List String) (s : Nat),
      dropMarkedFrom m s (l1 ++ l2) =
      dropMarkedFrom m s l1 ++ dropMarkedFrom m (s + l1.length) l2 := by
  intro l1
  induction l1 with
  | nil =>
    intro l2 s
    simp [dropMarkedFrom]
  | cons x xs ih =>
    intro l2 s
    have harith : s + (x :: xs).length = s + 1 + xs.length := by
      simp only [List.length_cons]
      omega
    by_cases hs : s ∈ m
    · simp only [List.cons_append, dropMarkedFrom, if_pos hs, harith]
      rw [List.append_eq, ih l2 (s + 1)]
    · simp only [List.cons_append, dropMarkedFrom, if_neg hs, harith]
      rw [List.append_eq, ih l2 (s + 1)]

theorem dropMarkedFrom_none_in (m : List Nat) :
    ∀ (l : List String) (s : Nat), (∀ t, t < l.length → s + t ∉ m) →
      dropMarkedFrom m s l = l := by
  intro l
  induction l with
  | nil => intro s _; rfl
  | cons x xs ih =>
    intro s h
    have h0 : s ∉ m := by
      have := h 0 (by simp)
      simpa using this
    simp only [dropMarkedFrom, if_neg h0]
    congr 1
    apply ih
    intro t ht
    have hm := h (t + 1) (by simp only [List.length_cons]; omega)
    have he : s + (t + 1) = s + 1 + t := by omega
    rwa [he] at hm

theorem dropMarkedFrom_all_in (m : List Nat) :
    ∀ (l : List String) (s : Nat), (∀ t, t < l.length → s + t ∈ m) →
      dropMarkedFrom m s l = [] := by
  intro l
  induction l with
  | nil => intro s _; rfl
  | cons x xs ih =>
    intro s h
    have h0 : s ∈ m := by
      have := h 0 (by simp)
      simpa using this
    simp only [dropMarkedFrom, if_pos h0]
    apply ih
    intro t ht
    have hm := h (t + 1) (by simp only [List.length_cons]; omega)
    have he : s + (t + 1) = s + 1 + t := by omega
    rwa [he] at hm

theorem dropMarkedFrom_congr (m1 m2 : List Nat) :
    ∀ (l : List String) (s : Nat),
      (∀ t, t < l.length → ((s + t ∈ m1) ↔ (s + t ∈ m2))) →
      dropMarkedFrom m1 s l = dropMarkedFrom m2 s l := by
  intro l
  induction l with
  | nil => intro s _; rfl
  | cons x xs ih =>
    intro s h
    have h0 : (s ∈ m1) ↔ (s ∈ m2) := by
      have := h 0 (by simp)
      simpa using this
    have htail : ∀ t, t < xs.length →
        ((s + 1 + t ∈ m1) ↔ (s + 1 + t ∈ m2)) := by
      intro t ht
      have hm := h (t + 1) (by simp only [List.length_cons]; omega)
      have he : s + (t + 1) = s + 1 + t := by omega
      rwa [he] at hm
    by_cases hs : s ∈ m1
    · simp only [dropMarkedFrom, if_pos hs, if_pos (h0.mp hs)]
      exact ih (s + 1) htail
    · simp only [dropMarkedFrom, if_neg hs, if_neg (fun hc => hs (h0.mpr hc))]
      rw [ih (s + 1) htail]

theorem mem_append_high {B R : List Nat} {cut idx : Nat}
    (hB : ∀ m ∈ B, m < cut) (hidx : cut ≤ idx) : (idx ∈ B ++ R) ↔ idx ∈ R := by
  rw [List.mem_append]
  constructor
  · rintro (h | h)
    · have := hB idx h
      omega
    · exact h
  · exact Or.inr

theorem getD_range_eq_take (l : List String) :
    ∀ (n i : Nat), i + n ≤ l.length →
      (List.range n).map (fun k => l.getD (i + k) "") = (l.drop i).take n := by
  intro n
  induction n with
  | zero => intro i _; rfl
  | succ n ihn =>
    intro i h
    rw [List.range_succ, List.map_append, List.take_succ, ihn i (by omega)]
    congr 1
    have hin : i + n < l.length := by omega
    rw [List.getElem?_drop, List.getElem?_eq_getElem hin]
    simp [List.getD_eq_getElem?_getD, List.getElem?_eq_getElem hin]

/-- `[i, i+n) ⊆ [0, len)` rows copied verbatim and then the remainder of the
source: together they are the source from `i` on. -/
theorem getD_range_append_drop (l : List String) (n i : Nat)
    (h : i + n ≤ l.length) :
    (List.range n).map (fun k => l.getD (i + k) "") ++ l.drop (i + n) =
      l.drop i := by
  rw [getD_range_eq_take l n i h]
  have hdd : l.drop (i + n) = (l.drop i).drop n := by
    rw [List.drop_drop]
  rw [hdd, List.take_append_drop]

theorem range_split (c n : Nat) (h : c ≤ n) :
    List.range n = List.range c ++ List.range' c (n - c) := by
  rw [List.range_eq_range', List.range_eq_range']
  have h1 : (0 : Nat) + 1 * c = c := by omega
  have h2 : n - c + c = n := by omega
  calc List.range' 0 n = List.range' 0 (n - c + c) := by rw [h2]
    _ = List.range' 0 c ++ List.range' (0 + 1 * c) (n - c) :=
      (List.range'_append 0 c (n - c) 1).symm
    _ = List.range' 0 c ++ List.range' c (n - c) := by rw [h1]

/-- C1 engine lemma, left side: deleting the rows marked `blank` from the
left output of the walk reproduces the unconsumed part of the left input. -/
theorem diffGo_recon_left (left right : List String) :
    ∀ (ops : List Opcode) (i j li ri : Nat),
      OpChain i j ops left.length right.length →
      dropMarkedFrom (diffGo left right ops li ri).left_marks.blank li
        (diffGo left right ops li ri).left_lines = left.drop i := by
  intro ops
  induction ops with
  | nil =>
    intro i j li ri h
    obtain ⟨h1, h2⟩ := h
    subst h1
    show dropMarkedFrom [] li [] = left.drop left.length
    rw [List.drop_length]
    rfl
  | cons op rest ih =>
    obtain ⟨tag, i1, i2, j1, j2⟩ := op
    intro i j li ri h
    obtain ⟨hi1, hj1, htag, hchain⟩ := h
    replace hi1 : i1 = i := hi1
    replace hj1 : j1 = j := hj1
    subst hi1
    subst hj1
    cases tag with
    | equal =>
      obtain ⟨hle, hsz, hjle⟩ := htag
      have hend := opChain_le rest i2 j2 _ _ hchain
      simp only [diffGo]
      rw [dropMarkedFrom_append]
      have hlen : ((List.range (i2 - i1)).map
          (fun k => left.getD (i1 + k) "")).length = i2 - i1 := by
        simp
      rw [hlen]
      have hno : ∀ t, t < ((List.range (i2 - i1)).map
          (fun k => left.getD (i1 + k) "")).length →
          li + t ∉ (diffGo left right rest (li + (i2 - i1))
            (ri + (i2 - i1))).left_marks.blank := by
        intro t ht hmem
        have hb := (diffGo_lb left right rest (li + (i2 - i1))
          (ri + (i2 - i1))).2.2.2.1 _ hmem
        simp only [List.length_map, List.length_range] at ht
        omega
      rw [dropMarkedFrom_none_in _ _ _ hno]
      rw [ih i2 j2 (li + (i2 - i1)) (ri + (i2 - i1)) hchain]
      rw [show left.drop i2 = left.drop (i1 + (i2 - i1)) from by congr 1; omega]
      exact getD_range_append_drop left (i2 - i1) i1 (by omega)
    | insert =>
      obtain ⟨hti, htj⟩ := htag
      simp only [diffGo]
      rw [dropMarkedFrom_append, List.length_replicate]
      have hall : ∀ t, t < (List.replicate (j2 - j1) BLANK_FILL).length →
          li + t ∈ (List.range (j2 - j1)).map (li + ·) ++
            (diffGo left right rest (li + (j2 - j1))
              (ri + (j2 - j1))).left_marks.blank := by
        intro t ht
        rw [List.length_replicate] at ht
        exact List.mem_append_left _
          (List.mem_map.mpr ⟨t, List.mem_range.mpr ht, rfl⟩)
      rw [dropMarkedFrom_all_in _ _ _ hall]
      have hcg := dropMarkedFrom_congr
        ((List.range (j2 - j1)).map (li + ·) ++
          (diffGo left right rest (li + (j2 - j1))
            (ri + (j2 - j1))).left_marks.blank)
        ((diffGo left right rest (li + (j2 - j1))
            (ri + (j2 - j1))).left_marks.blank)
        ((diffGo left right rest (li + (j2 - j1)) (ri + (j2 - j1))).left_lines)
        (li + (j2 - j1))
        (by
          intro t ht
          exact mem_append_high (bounded_range_map li _) (by omega))
      rw [hcg, ih i2 j2 (li + (j2 - j1)) (ri + (j2 - j1)) hchain,
        List.nil_append]
      congr 1
      omega
    | delete =>
      obtain ⟨hti, htj⟩ := htag
      have hend := opChain_le rest i2 j2 _ _ hchain
      simp only [diffGo]
      rw [dropMarkedFrom_append]
      have hlen : ((List.range (i2 - i1)).map
          (fun k => left.getD (i1 + k) "")).length = i2 - i1 := by
        simp
      rw [hlen]
      have hno : ∀ t, t < ((List.range (i2 - i1)).map
          (fun k => left.getD (i1 + k) "")).length →
          li + t ∉ (diffGo left right rest (li + (i2 - i1))
            (ri + (i2 - i1))).left_marks.blank := by
        intro t ht hmem
        have hb := (diffGo_lb left right rest (li + (i2 - i1))
          (ri + (i2 - i1))).2.2.2.1 _ hmem
        simp only [List.length_map, List.length_range] at ht
        omega
      rw [dropMarkedFrom_none_in _ _ _ hno]
      rw [ih i2 j2 (li + (i2 - i1)) (ri + (i2 - i1)) hchain]
      rw [show left.drop i2 = left.drop (i1 + (i2 - i1)) from by congr 1; omega]
      exact getD_range_append_drop left (i2 - i1) i1 (by omega)
    | replace =>
      obtain ⟨hti, htj⟩ := htag
      have hend := opChain_le rest i2 j2 _ _ hchain
      simp only [diffGo]
      have hlines : (List.range (max (i2 - i1) (j2 - j1))).map
          (fun k => if k < i2 - i1 then left.getD (i1 + k) "" else BLANK_FILL) =
          (List.range (i2 - i1)).map
            (fun k => if k < i2 - i1 then left.getD (i1 + k) ""
              else BLANK_FILL) ++
          (List.range' (i2 - i1) (max (i2 - i1) (j2 - j1) - (i2 - i1))).map
            (fun k => if k < i2 - i1 then left.getD (i1 + k) ""
              else BLANK_FILL) := by
        rw [range_split (i2 - i1) (max (i2 - i1) (j2 - j1)) (by omega),
          List.map_append]
      rw [hlines, List.append_assoc, dropMarkedFrom_append,
        dropMarkedFrom_append]
      have hlen1 : ((List.range (i2 - i1)).map
          (fun k => if k < i2 - i1 then left.getD (i1 + k) ""
            else BLANK_FILL)).length = i2 - i1 := by
        simp
      have hlen2 : ((List.range' (i2 - i1)
            (max (i2 - i1) (j2 - j1) - (i2 - i1))).map
          (fun k => if k < i2 - i1 then left.getD (i1 + k) ""
            else BLANK_FILL)).length =
          max (i2 - i1) (j2 - j1) - (i2 - i1) := by
        simp [List.length_range']
      rw [hlen1, hlen2]
      have hno : ∀ t, t < ((List.range (i2 - i1)).map
          (fun k => if k < i2 - i1 then left.getD (i1 + k) ""
            else BLANK_FILL)).length →
          li + t ∉ ((List.range (max (i2 - i1) (j2 - j1))).filter
              (fun k => decide (¬ k < i2 - i1))).map (li + ·) ++
            (diffGo left right rest (li + max (i2 - i1) (j2 - j1))
              (ri + max (i2 - i1) (j2 - j1))).left_marks.blank := by
        intro t ht hmem
        rw [hlen1] at ht
        rcases List.mem_append.mp hmem with hB | hR
        · obtain ⟨k, hk, hke⟩ := List.mem_map.mp hB
          have hkt : k = t := by omega
          subst hkt
          have := (List.mem_filter.mp hk).2
          rw [decide_eq_true_iff] at this
          omega
        · have hb := (diffGo_lb left right rest
            (li + max (i2 - i1) (j2 - j1))
            (ri + max (i2 - i1) (j2 - j1))).2.2.2.1 _ hR
          omega
      rw [dropMarkedFrom_none_in _ _ _ hno]
      have hall : ∀ t, t < ((List.range' (i2 - i1)
            (max (i2 - i1) (j2 - j1) - (i2 - i1))).map
          (fun k => if k < i2 - i1 then left.getD (i1 + k) ""
            else BLANK_FILL)).length →
          li + (i2 - i1) + t ∈ ((List.range (max (i2 - i1) (j2 - j1))).filter
              (fun k => decide (¬ k < i2 - i1))).map (li + ·) ++
            (diffGo left right rest (li + max (i2 - i1) (j2 - j1))
              (ri + max (i2 - i1) (j2 - j1))).left_marks.blank := by
        intro t ht
        rw [hlen2] at ht
        apply List.mem_append_left
        refine List.mem_map.mpr ⟨(i2 - i1) + t, List.mem_filter.mpr
          ⟨List.mem_range.mpr (by omega), ?_⟩, by omega⟩
        rw [decide_eq_true_iff]
        omega
      rw [dropMarkedFrom_all_in _ _ _ hall]
      have harr : li + (i2 - i1) + (max (i2 - i1) (j2 - j1) - (i2 - i1)) =
          li + max (i2 - i1) (j2 - j1) := by
        omega
      rw [harr]
      have hcg := dropMarkedFrom_congr
        (((List.range (max (i2 - i1) (j2 - j1))).filter
            (fun k => decide (¬ k < i2 - i1))).map (li + ·) ++
          (diffGo left right rest (li + max (i2 - i1) (j2 - j1))
            (ri + max (i2 - i1) (j2 - j1))).left_marks.blank)
        ((diffGo left right rest (li + max (i2 - i1) (j2 - j1))
            (ri + max (i2 - i1) (j2 - j1))).left_marks.blank)
        ((diffGo left right rest (li + max (i2 - i1) (j2 - j1))
          (ri + max (i2 - i1) (j2 - j1))).left_lines)
        (li + max (i2 - i1) (j2 - j1))
        (by
          intro t ht
          exact mem_append_high (bounded_filter_map li _) (by omega))
      rw [hcg, ih i2 j2 (li + max (i2 - i1) (j2 - j1))
        (ri + max (i2 - i1) (j2 - j1)) hchain, List.nil_append]
      have hmc : (List.range (i2 - i1)).map
          (fun k => if k < i2 - i1 then left.getD (i1 + k) "" else BLANK_FILL) =
          (List.range (i2 - i1)).map (fun k => left.getD (i1 + k) "") := by
        apply List.map_congr_left
        intro k hk
        rw [if_pos (List.mem_range.mp hk)]
      rw [hmc]
      rw [show left.drop i2 = left.drop (i1 + (i2 - i1)) from by congr 1; omega]
      exact getD_range_append_drop left (i2 - i1) i1 (by omega)

/-- C1 engine lemma, right side: deleting the rows marked `blank` from the
right output of the walk reproduces the unconsumed part of the right
input. -/
theorem diffGo_recon_right (left right : List String) :
    ∀ (ops : List Opcode) (i j li ri : Nat),
      OpChain i j ops left.length right.length →
      dropMarkedFrom (diffGo left right ops li ri).right_marks.blank ri
        (diffGo left right ops li ri).right_lines = right.drop j := by
  intro ops
  induction ops with
  | nil =>
    intro i j li ri h
    obtain ⟨h1, h2⟩ := h
    subst h2
    show dropMarkedFrom [] ri [] = right.drop right.length
    rw [List.drop_length]
    rfl
  | cons op rest ih =>
    obtain ⟨tag, i1, i2, j1, j2⟩ := op
    intro i j li ri h
    obtain ⟨hi1, hj1, htag, hchain⟩ := h
    replace hi1 : i1 = i := hi1
    replace hj1 : j1 = j := hj1
    subst hi1
    subst hj1
    cases tag with
    | equal =>
      obtain ⟨hle, hsz, hjle⟩ := htag
      have hend := opChain_le rest i2 j2 _ _ hchain
      simp only [diffGo]
      rw [dropMarkedFrom_append]
      have hlen : ((List.range (i2 - i1)).map
          (fun k => right.getD (j1 + k) "")).length = i2 - i1 := by
        simp
      rw [hlen]
      have hno : ∀ t, t < ((List.range (i2 - i1)).map
          (fun k => right.getD (j1 + k) "")).length →
          ri + t ∉ (diffGo left right rest (li + (i2 - i1))
            (ri + (i2 - i1))).right_marks.blank := by
        intro t ht hmem
        have hb := (diffGo_lb left right rest (li + (i2 - i1))
          (ri + (i2 - i1))).2.2.2.2.2.2.2.1 _ hmem
        simp only [List.length_map, List.length_range] at ht
        omega
      rw [dropMarkedFrom_none_in _ _ _ hno]
      rw [ih i2 j2 (li + (i2 - i1)) (ri + (i2 - i1)) hchain]
      rw [show right.drop j2 = right.drop (j1 + (i2 - i1)) from by
        congr 1; omega]
      exact getD_range_append_drop right (i2 - i1) j1 (by omega)
    | insert =>
      obtain ⟨hti, htj⟩ := htag
      have hend := opChain_le rest i2 j2 _ _ hchain
      simp only [diffGo]
      rw [dropMarkedFrom_append]
      have hlen : ((List.range (j2 - j1)).map
          (fun k => right.getD (j1 + k) "")).length = j2 - j1 := by
        simp
      rw [hlen]
      have hno : ∀ t, t < ((List.range (j2 - j1)).map
          (fun k => right.getD (j1 + k) "")).length →
          ri + t ∉ (diffGo left right rest (li + (j2 - j1))
            (ri + (j2 - j1))).right_marks.blank := by
        intro t ht hmem
        have hb := (diffGo_lb left right rest (li + (j2 - j1))
          (ri + (j2 - j1))).2.2.2.2.2.2.2.1 _ hmem
        simp only [List.length_map, List.length_range] at ht
        omega
      rw [dropMarkedFrom_none_in _ _ _ hno]
      rw [ih i2 j2 (li + (j2 - j1)) (ri + (j2 - j1)) hchain]
      rw [show right.drop j2 = right.drop (j1 + (j2 - j1)) from by
        congr 1; omega]
      exact getD_range_append_drop right (j2 - j1) j1 (by omega)
    | delete =>
      obtain ⟨hti, htj⟩ := htag
      simp only [diffGo]
      rw [dropMarkedFrom_append, List.length_replicate]
      have hall : ∀ t, t < (List.replicate (i2 - i1) BLANK_FILL).length →
          ri + t ∈ (List.range (i2 - i1)).map (ri + ·) ++
            (diffGo left right rest (li + (i2 - i1))
              (ri + (i2 - i1))).right_marks.blank := by
        intro t ht
        rw [List.length_replicate] at ht
        exact List.mem_append_left _
          (List.mem_map.mpr ⟨t, List.mem_range.mpr ht, rfl⟩)
      rw [dropMarkedFrom_all_in _ _ _ hall]
      have hcg := dropMarkedFrom_congr
        ((List.range (i2 - i1)).map (ri + ·) ++
          (diffGo left right rest (li + (i2 - i1))
            (ri + (i2 - i1))).right_marks.blank)
        ((diffGo left right rest (li + (i2 - i1))
            (ri + (i2 - i1))).right_marks.blank)
        ((diffGo left right rest (li + (i2 - i1)) (ri + (i2 - i1))).right_lines)
        (ri + (i2 - i1))
        (by
          intro t ht
          exact mem_append_high (bounded_range_map ri _) (by omega))
      rw [hcg, ih i2 j2 (li + (i2 - i1)) (ri + (i2 - i1)) hchain,
        List.nil_append]
      congr 1
      omega
    | replace =>
      obtain ⟨hti, htj⟩ := htag
      have hend := opChain_le rest i2 j2 _ _ hchain
      simp only [diffGo]
      have hlines : (List.range (max (i2 - i1) (j2 - j1))).map
          (fun k => if k < j2 - j1 then right.getD (j1 + k) ""
            else BLANK_FILL) =
          (List.range (j2 - j1)).map
            (fun k => if k < j2 - j1 then right.getD (j1 + k) ""
              else BLANK_FILL) ++
          (List.range' (j2 - j1) (max (i2 - i1) (j2 - j1) - (j2 - j1))).map
            (fun k => if k < j2 - j1 then right.getD (j1 + k) ""
              else BLANK_FILL) := by
        rw [range_split (j2 - j1) (max (i2 - i1) (j2 - j1)) (by omega),
          List.map_append]
      rw [hlines, List.append_assoc, dropMarkedFrom_append,
        dropMarkedFrom_append]
      have hlen1 : ((List.range (j2 - j1)).map
          (fun k => if k < j2 - j1 then right.getD (j1 + k) ""
            else BLANK_FILL)).length = j2 - j1 := by
        simp
      have hlen2 : ((List.range' (j2 - j1)
            (max (i2 - i1) (j2 - j1) - (j2 - j1))).map
          (fun k => if k < j2 - j1 then right.getD (j1 + k) ""
            else BLANK_FILL)).length =
          max (i2 - i1) (j2 - j1) - (j2 - j1) := by
        simp [List.length_range']
      rw [hlen1, hlen2]
      have hno : ∀ t, t < ((List.range (j2 - j1)).map
          (fun k => if k < j2 - j1 then right.getD (j1 + k) ""
            else BLANK_FILL)).length →
          ri + t ∉ ((List.range (max (i2 - i1) (j2 - j1))).filter
              (fun k => decide (k < i2 - i1 ∧ ¬ k < j2 - j1))).map (ri + ·) ++
            (diffGo left right rest (li + max (i2 - i1) (j2 - j1))
              (ri + max (i2 - i1) (j2 - j1))).right_marks.blank := by
        intro t ht hmem
        rw [hlen1] at ht
        rcases List.mem_append.mp hmem with hB | hR
        · obtain ⟨k, hk, hke⟩ := List.mem_map.mp hB
          have hkt : k = t := by omega
          subst hkt
          have := (List.mem_filter.mp hk).2
          rw [decide_eq_true_iff] at this
          omega
        · have hb := (diffGo_lb left right rest
            (li + max (i2 - i1) (j2 - j1))
            (ri + max (i2 - i1) (j2 - j1))).2.2.2.2.2.2.2.1 _ hR
          omega
      rw [dropMarkedFrom_none_in _ _ _ hno]
      have hall : ∀ t, t < ((List.range' (j2 - j1)
            (max (i2 - i1) (j2 - j1) - (j2 - j1))).map
          (fun k => if k < j2 - j1 then right.getD (j1 + k) ""
            else BLANK_FILL)).length →
          ri + (j2 - j1) + t ∈ ((List.range (max (i2 - i1) (j2 - j1))).filter
              (fun k => decide (k < i2 - i1 ∧ ¬ k < j2 - j1))).map (ri + ·) ++
            (diffGo left right rest (li + max (i2 - i1) (j2 - j1))
              (ri + max (i2 - i1) (j2 - j1))).right_marks.blank := by
        intro t ht
        rw [hlen2] at ht
        apply List.mem_append_left
        refine List.mem_map.mpr ⟨(j2 - j1) + t, List.mem_filter.mpr
          ⟨List.mem_range.mpr (by omega), ?_⟩, by omega⟩
        rw [decide_eq_true_iff]
        omega
      rw [dropMarkedFrom_all_in _ _ _ hall]
      have harr : ri + (j2 - j1) + (max (i2 - i1) (j2 - j1) - (j2 - j1)) =
          ri + max (i2 - i1) (j2 - j1) := by
        omega
      rw [harr]
      have hcg := dropMarkedFrom_congr
        (((List.range (max (i2 - i1) (j2 - j1))).filter
            (fun k => decide (k < i2 - i1 ∧ ¬ k < j2 - j1))).map (ri + ·) ++
          (diffGo left right rest (li + max (i2 - i1) (j2 - j1))
            (ri + max (i2 - i1) (j2 - j1))).right_marks.blank)
        ((diffGo left right rest (li + max (i2 - i1) (j2 - j1))
            (ri + max (i2 - i1) (j2 - j1))).right_marks.blank)
        ((diffGo left right rest (li + max (i2 - i1) (j2 - j1))
          (ri + max (i2 - i1) (j2 - j1))).right_lines)
        (ri + max (i2 - i1) (j2 - j1))
        (by
          intro t ht
          exact mem_append_high (bounded_filter_map ri _) (by omega))
      rw [hcg, ih i2 j2 (li + max (i2 - i1) (j2 - j1))
        (ri + max (i2 - i1) (j2 - j1)) hchain, List.nil_append]
      have hmc : (List.range (j2 - j1)).map
          (fun k => if k < j2 - j1 then right.getD (j1 + k) ""
            else BLANK_FILL) =
          (List.range (j2 - j1)).map (fun k => right.getD (j1 + k) "") := by
        apply List.map_congr_left
        intro k hk
        rw [if_pos (List.mem_range.mp hk)]
      rw [hmc]
      rw [show right.drop j2 = right.drop (j1 + (j2 - j1)) from by
        congr 1; omega]
      exact getD_range_append_drop right (j2 - j1) j1 (by omega)

theorem innerLoop_best (blo bhi : Nat) (j2len : Nat → Nat) (i : Nat) :
    ∀ (js : List Nat) (acc : Nat → Nat) (best : Nat × Nat × Nat),
      (∀ x ∈ js, blo ≤ x ∧ x < bhi) →
      (innerLoop blo bhi j2len i js acc best).2 =
        js.foldl (bestStep j2len i) best := by
  intro js
  induction js with
  | nil => intro acc best _; rfl
  | cons x js ih =>
    intro acc best h
    have hx := h x (List.mem_cons_self x js)
    have h1 : ¬ x < blo := by omega
    have h2 : ¬ bhi ≤ x := by omega
    simp only [innerLoop, if_neg h1, if_neg h2, List.foldl_cons]
    exact ih _ _ (fun y hy => h y (List.mem_cons_of_mem x hy))

theorem innerLoop_acc (blo bhi : Nat) (j2len : Nat → Nat) (i : Nat) :
    ∀ (js : List Nat) (acc : Nat → Nat) (best : Nat × Nat × Nat) (m : Nat),
      (∀ x ∈ js, blo ≤ x ∧ x < bhi) →
      (innerLoop blo bhi j2len i js acc best).1 m =
        if m ∈ js then j2lenNext j2len m else acc m := by
  intro js
  induction js with
  | nil =>
    intro acc best m _
    simp [innerLoop]
  | cons x js ih =>
    intro acc best m h
    have hx := h x (List.mem_cons_self x js)
    have h1 : ¬ x < blo := by omega
    have h2 : ¬ bhi ≤ x := by omega
    simp only [innerLoop, if_neg h1, if_neg h2]
    rw [ih _ _ m (fun y hy => h y (List.mem_cons_of_mem x hy))]
    by_cases hmj : m ∈ js
    · rw [if_pos hmj, if_pos (List.mem_cons_of_mem x hmj)]
    · rw [if_neg hmj]
      by_cases hmx : m = x
      · subst hmx
        simp [List.mem_cons]
      · have : m ∉ x :: js := by
          simp [List.mem_cons, hmx, hmj]
        rw [if_neg hmx, if_neg this]

theorem bestFold_noupdate (j2len : Nat → Nat) (i : Nat) :
    ∀ (js : List Nat) (best : Nat × Nat × Nat),
      (∀ x ∈ js, j2lenNext j2len x ≤ best.2.2) →
      js.foldl (bestStep j2len i) best = best := by
  intro js
  induction js with
  | nil => intro best _; rfl
  | cons x js ih =>
    intro best h
    have hx := h x (List.mem_cons_self x js)
    rw [List.foldl_cons]
    have hstep : bestStep j2len i best x = best := by
      unfold bestStep
      rw [if_neg (by omega)]
    rw [hstep]
    exact ih best (fun y hy => h y (List.mem_cons_of_mem x hy))

/-- In the self-comparison, processing index `t` pushes the best triple from
`(0, 0, t)` to `(0, 0, t + 1)` at the diagonal position `t`. -/
theorem bestFold_diag (j2len : Nat → Nat) (t : Nat) (js1 js2 : List Nat)
    (h1 : ∀ x ∈ js1, j2lenNext j2len x ≤ t)
    (hdiag : j2lenNext j2len t = t + 1)
    (h2 : ∀ x ∈ js2, j2lenNext j2len x ≤ t + 1) :
    (js1 ++ t :: js2).foldl (bestStep j2len t) (0, 0, t) = (0, 0, t + 1) := by
  rw [List.foldl_append, bestFold_noupdate j2len t js1 (0, 0, t) h1,
    List.foldl_cons]
  have hstep : bestStep j2len t (0, 0, t) t = (0, 0, t + 1) := by
    unfold bestStep
    rw [hdiag, if_pos (show (0, 0, t).2.2 < t + 1 by dsimp only; omega)]
    have hz : t + 1 - (t + 1) = 0 := by omega
    rw [hz]
  rw [hstep]
  exact bestFold_noupdate j2len t js2 (0, 0, t + 1) h2

theorem filter_range_split (p : Nat → Bool) (t n : Nat) (ht : t < n)
    (hpt : p t = true) :
    (List.range n).filter p =
      (List.range t).filter p ++
        t :: (List.range' (t + 1) (n - t - 1)).filter p := by
  rw [range_split t n (by omega), List.filter_append]
  congr 1
  have hr : List.range' t (n - t) = t :: List.range' (t + 1) (n - t - 1) := by
    have hc : n - t = (n - t - 1) + 1 := by omega
    rw [hc, List.range'_succ]
    have hd : n - t - 1 + 1 - 1 = n - t - 1 := by omega
    rw [hd]
  rw [hr, List.filter_cons_of_pos hpt]

section SelfMatch

variable {α : Type} [DecidableEq α]

/-- In the self-comparison over the full rectangle, the outer loop keeps the
best triple on the diagonal and ends at `(0, 0, len)`. -/
theorem outerLoop_diag (a : List α) :
    ∀ (c t : Nat) (j2len : Nat → Nat),
      t + c = a.length →
      (∀ m, j2len m ≤ t) →
      (∀ m, j2len m ≤ m + 1) →
      (1 ≤ t → j2len (t - 1) = t) →
      outerLoop (b2j a) a 0 a.length (List.range' t c) j2len (0, 0, t) =
        (0, 0, a.length) := by
  intro c
  induction c with
  | zero =>
    intro t j2len hsum _ _ _
    have ht : t = a.length := by omega
    subst ht
    rfl
  | succ c ihc =>
    intro t j2len hsum hJ1 hJ2 hJdiag
    have htlen : t < a.length := by omega
    rw [List.range'_succ]
    simp only [outerLoop]
    rw [List.getElem?_eq_getElem htlen]
    have hmem : ∀ x ∈ b2j a a[t], 0 ≤ x ∧ x < a.length := by
      intro x hx
      have := List.mem_range.mp (List.mem_filter.mp hx).1
      omega
    have hkval : ∀ x, j2lenNext j2len x ≤
        (if x = 0 then 0 else j2len (x - 1)) + 1 := by
      intro x
      unfold j2lenNext
      omega
    have hk_le : ∀ x, j2lenNext j2len x ≤ x + 1 := by
      intro x
      unfold j2lenNext
      by_cases hx : x = 0
      · rw [if_pos hx]
        omega
      · rw [if_neg hx]
        have := hJ2 (x - 1)
        omega
    have hk_t1 : ∀ x, j2lenNext j2len x ≤ t + 1 := by
      intro x
      unfold j2lenNext
      by_cases hx : x = 0
      · rw [if_pos hx]
        omega
      · rw [if_neg hx]
        have := hJ1 (x - 1)
        omega
    have hdiag : j2lenNext j2len t = t + 1 := by
      unfold j2lenNext
      by_cases hx : t = 0
      · rw [if_pos hx, hx]
      · rw [if_neg hx]
        rw [hJdiag (by omega)]
    have hpt : (fun j => decide (a[j]? = some a[t])) t = true := by
      rw [decide_eq_true_iff]
      exact List.getElem?_eq_getElem htlen
    have hsplit := filter_range_split
      (fun j => decide (a[j]? = some a[t])) t a.length htlen hpt
    have hbest : (innerLoop 0 a.length j2len t (b2j a a[t])
        (fun _ => 0) (0, 0, t)).2 = (0, 0, t + 1) := by
      rw [innerLoop_best 0 a.length j2len t (b2j a a[t]) (fun _ => 0)
        (0, 0, t) hmem]
      show (b2j a a[t]).foldl (bestStep j2len t) (0, 0, t) = (0, 0, t + 1)
      unfold b2j
      rw [hsplit]
      refine bestFold_diag j2len t _ _ ?_ hdiag ?_
      · intro x hx
        have hxt := List.mem_range.mp (List.mem_filter.mp hx).1
        have := hk_le x
        omega
      · intro x hx
        exact hk_t1 x
    rw [hbest]
    refine ihc (t + 1)
      (innerLoop 0 a.length j2len t (b2j a a[t]) (fun _ => 0) (0, 0, t)).1
      (by omega) ?_ ?_ ?_
    · intro m
      rw [innerLoop_acc 0 a.length j2len t (b2j a a[t]) (fun _ => 0)
        (0, 0, t) m hmem]
      by_cases hm : m ∈ b2j a a[t]
      · rw [if_pos hm]
        exact hk_t1 m
      · rw [if_neg hm]
        omega
    · intro m
      rw [innerLoop_acc 0 a.length j2len t (b2j a a[t]) (fun _ => 0)
        (0, 0, t) m hmem]
      by_cases hm : m ∈ b2j a a[t]
      · rw [if_pos hm]
        exact hk_le m
      · rw [if_neg hm]
        omega
    · intro hpos
      have ht1 : t + 1 - 1 = t := by omega
      rw [ht1]
      rw [innerLoop_acc 0 a.length j2len t (b2j a a[t]) (fun _ => 0)
        (0, 0, t) t hmem]
      have htm : t ∈ b2j a a[t] := by
        unfold b2j
        exact List.mem_filter.mpr ⟨List.mem_range.mpr htlen, hpt⟩
      rw [if_pos htm]
      exact hdiag

/-- `find_longest_match` on the full rectangle of a self-comparison returns
the whole-sequence match. -/
theorem findLongestMatch_self (a : List α) :
    findLongestMatch a a (b2j a) 0 a.length 0 a.length =
      (0, 0, a.length) := by
  unfold findLongestMatch
  have hz : a.length - 0 = a.length := rfl
  rw [hz]
  rw [outerLoop_diag a a.length 0 (fun _ => 0) (by omega)
    (fun m => Nat.zero_le _) (fun m => Nat.le_add_left _ _)
    (by intro h; exact absurd h (by omega))]
  show ((extendLeft a a 0 0 0 0 a.length).1, (extendLeft a a 0 0 0 0 a.length).2.1,
    extendRight a a a.length a.length (extendLeft a a 0 0 0 0 a.length).1
      (extendLeft a a 0 0 0 0 a.length).2.1
      (extendLeft a a 0 0 0 0 a.length).2.2) = (0, 0, a.length)
  have hel : extendLeft a a 0 0 0 0 a.length = (0, 0, a.length) := rfl
  rw [hel]
  show (0, 0, extendRight a a a.length a.length 0 0 a.length) =
    (0, 0, a.length)
  unfold extendRight
  have hg : a.length - (0 + a.length) = 0 := by omega
  rw [hg]
  rfl

theorem matchingBlocks_self (a : List α) :
    matchingBlocks a a (b2j a) 0 a.length 0 a.length =
      if a.length = 0 then [] else [(0, 0, a.length)] := by
  unfold matchingBlocks
  rw [findLongestMatch_self]
  by_cases h : a.length = 0
  · rw [dif_pos h, if_pos h]
  · rw [dif_neg h, if_neg h]
    rw [dif_neg (by dsimp only; omega), dif_neg (by dsimp only; omega)]
    rfl

theorem getOpcodes_self (a : List α) :
    getOpcodes a a =
      if a.length = 0 then []
      else [⟨Tag.equal, 0, a.length, 0, a.length⟩] := by
  unfold getOpcodes getMatchingBlocks
  rw [matchingBlocks_self]
  by_cases h : a.length = 0
  · rw [if_pos h, if_pos h]
    show getOpcodesGo 0 0 (collapseGo (0, 0, 0) (sortBlocks []) ++
      [(a.length, a.length, 0)]) = []
    rw [h]
    rfl
  · rw [if_neg h, if_neg h]
    show getOpcodesGo 0 0 (collapseGo (0, 0, 0)
      (sortBlocks [(0, 0, a.length)]) ++ [(a.length, a.length, 0)]) = _
    have hsort : sortBlocks [(0, 0, a.length)] = [(0, 0, a.length)] := rfl
    rw [hsort]
    show getOpcodesGo 0 0
      ((if (0 : Nat) + 0 = 0 ∧ (0 : Nat) + 0 = 0 then
          collapseGo (0, 0, 0 + a.length) []
        else (if (0 : Nat) ≠ 0 then [(0, 0, 0)] else []) ++
          collapseGo (0, 0, a.length) []) ++ [(a.length, a.length, 0)]) = _
    rw [if_pos ⟨rfl, rfl⟩]
    show getOpcodesGo 0 0
      ((if 0 + a.length ≠ 0 then [(0, 0, 0 + a.length)] else []) ++
        [(a.length, a.length, 0)]) = _
    rw [if_pos (by omega)]
    have hza : 0 + a.length = a.length := by omega
    rw [hza]
    show (if (0 : Nat) < 0 ∧ (0 : Nat) < 0 then
        [(⟨Tag.replace, 0, 0, 0, 0⟩ : Opcode)]
      else if (0 : Nat) < 0 then [⟨Tag.delete, 0, 0, 0, 0⟩]
      else if (0 : Nat) < 0 then [⟨Tag.insert, 0, 0, 0, 0⟩] else []) ++
      (if a.length ≠ 0 then
        [(⟨Tag.equal, 0, 0 + a.length, 0, 0 + a.length⟩ : Opcode)] else []) ++
      getOpcodesGo (0 + a.length) (0 + a.length) [(a.length, a.length, 0)] = _
    rw [if_neg (by omega), if_neg (by omega), if_neg (by omega),
      if_pos h, hza]
    show [(⟨Tag.equal, 0, a.length, 0, a.length⟩ : Opcode)] ++
      getOpcodesGo a.length a.length [(a.length, a.length, 0)] = _
    have hlast : getOpcodesGo a.length a.length [(a.length, a.length, 0)] =
        [] := by
      show (if a.length < a.length ∧ a.length < a.length then
          [(⟨Tag.replace, a.length, a.length, a.length, a.length⟩ : Opcode)]
        else if a.length < a.length then
          [⟨Tag.delete, a.length, a.length, a.length, a.length⟩]
        else if a.length < a.length then
          [⟨Tag.insert, a.length, a.length, a.length, a.length⟩] else []) ++
        (if (0 : Nat) ≠ 0 then
          [(⟨Tag.equal, a.length, a.length + 0, a.length,
            a.length + 0⟩ : Opcode)] else []) ++
        getOpcodesGo (a.length + 0) (a.length + 0) [] = []
      rw [if_neg (by omega), if_neg (by omega), if_neg (by omega),
        if_neg (by omega)]
      rfl
    rw [hlast, List.append_nil]

end SelfMatch

theorem getD_range_self (l : List String) :
    (List.range l.length).map (fun k => l.getD (0 + k) "") = l := by
  have h := getD_range_append_drop l l.length 0 (by omega)
  have hz : (0 : Nat) + l.length = l.length := by omega
  rw [hz, List.drop_length, List.append_nil] at h
  rw [h]
  rfl

/-- C8 engine lemma: the self-comparison emits a single `equal` opcode (or
none when empty), so the walk copies the input verbatim to both sides. -/
theorem compute_diff_self (X : List String) :
    (compute_diff X X).diff_blocks = [] ∧
    (compute_diff X X).changed_pairs = [] ∧
    (compute_diff X X).left_lines = X ∧
    (compute_diff X X).right_lines = X := by
  unfold compute_diff
  rw [getOpcodes_self]
  by_cases h : X.length = 0
  · rw [if_pos h]
    have hX : X = [] := List.length_eq_zero.mp h
    subst hX
    exact ⟨rfl, rfl, rfl, rfl⟩
  · rw [if_neg h]
    have h0 : X.length - 0 = X.length := rfl
    refine ⟨rfl, rfl, ?_, ?_⟩
    · show (List.range (X.length - 0)).map (fun k => X.getD (0 + k) "") ++
        ([] : List String) = X
      rw [h0, List.append_nil, getD_range_self]
    · show (List.range (X.length - 0)).map (fun k => X.getD (0 + k) "") ++
        ([] : List String) = X
      rw [h0, List.append_nil, getD_range_self]

/-- Concrete evaluation of the matcher for the example
`left = ["a","b","c"], right = ["a","x","c"]`. -/
theorem getOpcodes_example :
    getOpcodes ["a", "b", "c"] ["a", "x", "c"] =
      [⟨Tag.equal, 0, 1, 0, 1⟩, ⟨Tag.replace, 1, 2, 1, 2⟩,
        ⟨Tag.equal, 2, 3, 2, 3⟩] := by
  have f1 : findLongestMatch ["a", "b", "c"] ["a", "x", "c"]
      (b2j ["a", "x", "c"]) 0 3 0 3 = (0, 0, 1) := by decide
  have f2 : findLongestMatch ["a", "b", "c"] ["a", "x", "c"]
      (b2j ["a", "x", "c"]) 1 3 1 3 = (2, 2, 1) := by decide
  have f3 : findLongestMatch ["a", "b", "c"] ["a", "x", "c"]
      (b2j ["a", "x", "c"]) 1 2 1 2 = (1, 1, 0) := by decide
  have m1 : matchingBlocks ["a", "b", "c"] ["a", "x", "c"]
      (b2j ["a", "x", "c"]) 1 2 1 2 = [] := by
    unfold matchingBlocks
    rw [f3]
    rw [dif_pos (show ((1, 1, 0) : Nat × Nat × Nat).2.2 = 0 from rfl)]
  have m2 : matchingBlocks ["a", "b", "c"] ["a", "x", "c"]
      (b2j ["a", "x", "c"]) 1 3 1 3 = [(2, 2, 1)] := by
    unfold matchingBlocks
    rw [f2]
    rw [dif_neg (by decide)]
    rw [dif_pos (by decide), dif_neg (by decide), m1]
    rfl
  have m3 : matchingBlocks ["a", "b", "c"] ["a", "x", "c"]
      (b2j ["a", "x", "c"]) 0 3 0 3 = [(0, 0, 1), (2, 2, 1)] := by
    unfold matchingBlocks
    rw [f1]
    rw [dif_neg (by decide)]
    rw [dif_neg (by decide), dif_pos (by decide)]
    have hr1 : ((0, 0, 1) : Nat × Nat × Nat).1 +
        ((0, 0, 1) : Nat × Nat × Nat).2.2 = 1 := rfl
    have hr2 : ((0, 0, 1) : Nat × Nat × Nat).2.1 +
        ((0, 0, 1) : Nat × Nat × Nat).2.2 = 1 := rfl
    rw [hr1, m2]
    rfl
  unfold getOpcodes getMatchingBlocks
  show getOpcodesGo 0 0 (collapseGo (0, 0, 0) (sortBlocks
    (matchingBlocks ["a", "b", "c"] ["a", "x", "c"] (b2j ["a", "x", "c"])
      0 3 0 3)) ++ [(3, 3, 0)]) = _
  rw [m3]
  rfl

/-- Closing an already-closed display view raises; the guard swallows it and
the view state is unchanged (hence still closed); a live view closes. -/
theorem tryCloseView_closed (alive : Bool) : tryCloseView alive = false := by
  cases alive <;> rfl

theorem rlookup_rpop_self (reg : List (Nat × SessionRef)) (k : Nat) :
    rlookup (rpop reg k) k = none := by
  induction reg with
  | nil => rfl
  | cons p rest ih =>
    obtain ⟨pk, ps⟩ := p
    by_cases hp : pk = k
    · subst hp
      show rlookup (List.filter _ ((pk, ps) :: rest)) pk = none
      rw [List.filter_cons_of_neg (by simp)]
      exact ih
    · show rlookup (List.filter _ ((pk, ps) :: rest)) k = none
      rw [List.filter_cons_of_pos (by simp [hp])]
      show (if pk = k then some ps else rlookup (rpop rest k) k) = none
      rw [if_neg hp]
      exact ih

theorem rlookup_rpop_other (reg : List (Nat × SessionRef)) (k k2 : Nat)
    (h : k2 ≠ k) : rlookup (rpop reg k) k2 = rlookup reg k2 := by
  induction reg with
  | nil => rfl
  | cons p rest ih =>
    obtain ⟨pk, ps⟩ := p
    by_cases hp : pk = k
    · subst hp
      show rlookup (List.filter _ ((pk, ps) :: rest)) k2 =
        (if pk = k2 then some ps else rlookup rest k2)
      rw [List.filter_cons_of_neg (by simp), if_neg (fun hc => h hc.symm)]
      exact ih
    · show rlookup (List.filter _ ((pk, ps) :: rest)) k2 =
        (if pk = k2 then some ps else rlookup rest k2)
      rw [List.filter_cons_of_pos (by simp [hp])]
      show (if pk = k2 then some ps else rlookup (rpop rest k) k2) = _
      by_cases hk2 : pk = k2
      · rw [if_pos hk2, if_pos hk2]
      · rw [if_neg hk2, if_neg hk2]
        exact ih

theorem rpop_of_lookup_none (reg : List (Nat × SessionRef)) (k : Nat)
    (h : rlookup reg k = none) : rpop reg k = reg := by
  induction reg with
  | nil => rfl
  | cons p rest ih =>
    obtain ⟨pk, ps⟩ := p
    have hh : (if pk = k then some ps else rlookup rest k) = none := h
    by_cases hp : pk = k
    · rw [if_pos hp] at hh
      exact absurd hh (by simp)
    · rw [if_neg hp] at hh
      show List.filter _ ((pk, ps) :: rest) = _
      rw [List.filter_cons_of_pos (by simp [hp])]
      show (pk, ps) :: rpop rest k = _
      rw [ih hh]

/-- `(x % m + 1) % m = (x + 1) % m` over `Int`. -/
theorem int_emod_add_one (x m : Int) : (x % m + 1) % m = (x + 1) % m := by
  conv_lhs => rw [Int.add_emod]
  conv_rhs => rw [Int.add_emod]
  rw [Int.emod_emod_of_dvd _ dvd_rfl]

/-- Iterating `next_block` keeps the block list and advances the cursor
modulo the block count. -/
theorem next_block_iterate (blocks : List (Nat × Nat))
    (h : blocks ≠ []) :
    ∀ (n : Nat) (bi : Int),
      ((fun s => (next_block s).2)^[n + 1] (⟨blocks, bi⟩ : CompareSession)) =
        ⟨blocks, (bi + (n + 1)) % (blocks.length : Int)⟩ := by
  intro n
  induction n with
  | zero =>
    intro bi
    rw [Function.iterate_one]
    show (next_block ⟨blocks, bi⟩).2 = _
    unfold next_block
    rw [if_neg (by simpa [List.isEmpty_iff] using h)]
    show (⟨blocks, (bi + 1) % (blocks.length : Int)⟩ : CompareSession) = _
    norm_num
  | succ n ih =>
    intro bi
    rw [Function.iterate_succ_apply']
    rw [ih bi]
    show (next_block ⟨blocks, (bi + (n + 1)) % (blocks.length : Int)⟩).2 = _
    unfold next_block
    rw [if_neg (by simpa [List.isEmpty_iff] using h)]
    show (⟨blocks, ((bi + (n + 1)) % (blocks.length : Int) + 1) %
      (blocks.length : Int)⟩ : CompareSession) = _
    rw [int_emod_add_one]
    norm_num
    ring_nf

/-- After any write that leaves the two viewports equal, a poll tick cannot
change either viewport (whichever side is seen as moved writes the value the
peer already has) and refreshes both last-known offsets to the truth. -/
theorem fast_poll_tick_of_eq (s : SyncState) (hv : s.vpL = s.vpR) :
    (fast_poll_tick s).vpL = s.vpL ∧ (fast_poll_tick s).vpR = s.vpR ∧
    (fast_poll_tick s).lastL = some s.vpL ∧
    (fast_poll_tick s).lastR = some s.vpR := by
  unfold fast_poll_tick
  dsimp only
  by_cases h1 : movedB s.lastL s.vpL = true ∧ s.syncL = false
  · rw [if_pos h1]
    exact ⟨rfl, hv, rfl, congrArg some hv⟩
  · rw [if_neg h1]
    by_cases h2 : movedB s.lastR s.vpR = true ∧ s.syncR = false
    · rw [if_pos h2]
      exact ⟨hv.symm, rfl, congrArg some hv.symm, rfl⟩
    · rw [if_neg h2]
      exact ⟨rfl, rfl, rfl, rfl⟩

theorem sync_peer_eq (A : Side) (st : SyncState)
    (h : (match A with | Side.left => st.syncL | Side.right => st.syncR) =
      false) : (sync_peer A st).vpL = (sync_peer A st).vpR := by
  cases A
  · show (if st.syncL then st
        else { st with vpR := st.vpL, syncR := false }).vpL =
      (if st.syncL then st
        else { st with vpR := st.vpL, syncR := false }).vpR
    rw [if_neg (by simp [show st.syncL = false from h])]
  · show (if st.syncR then st
        else { st with vpL := st.vpR, syncL := false }).vpL =
      (if st.syncR then st
        else { st with vpL := st.vpR, syncL := false }).vpR
    rw [if_neg (by simp [show st.syncR = false from h])]

/-- C9: `_apply_inline_highlights` emits a left span exactly for the
non-equal character opcodes with nonempty left range of an in-range changed
pair, at the pair's line-start offset plus the opcode's column range, and
symmetrically on the right; out-of-range pairs contribute nothing. -/
theorem claim_inline_refiner (ls rs : List Nat) :
    ∀ (pairs : List (Nat × Nat × String × String)) (sp : Nat × Nat),
      (sp ∈ (apply_inline_highlights ls rs pairs).1 ↔
        ∃ li ri lt rt, (li, ri, lt, rt) ∈ pairs ∧ li < ls.length ∧
          ri < rs.length ∧ ∃ op, op ∈ getOpcodes lt.toList rt.toList ∧
            op.tag ≠ Tag.equal ∧ op.i1 < op.i2 ∧
            sp = (ls.getD li 0 + op.i1, ls.getD li 0 + op.i2)) ∧
      (sp ∈ (apply_inline_highlights ls rs pairs).2 ↔
        ∃ li ri lt rt, (li, ri, lt, rt) ∈ pairs ∧ li < ls.length ∧
          ri < rs.length ∧ ∃ op, op ∈ getOpcodes lt.toList rt.toList ∧
            op.tag ≠ Tag.equal ∧ op.j1 < op.j2 ∧
            sp = (rs.getD ri 0 + op.j1, rs.getD ri 0 + op.j2)) := by
  intro pairs
  induction pairs with
  | nil =>
    intro sp
    constructor
    · simp [apply_inline_highlights]
    · simp [apply_inline_highlights]
  | cons p rest ih =>
    obtain ⟨pli, pri, plt, prt⟩ := p
    intro sp
    have ihs := ih sp
    by_cases hb : pli < ls.length ∧ pri < rs.length
    · have heq : apply_inline_highlights ls rs ((pli, pri, plt, prt) :: rest) =
          ((((getOpcodes plt.toList prt.toList).filter
              (fun op => decide (op.tag ≠ Tag.equal ∧ op.i1 < op.i2))).map
              (fun op => (ls.getD pli 0 + op.i1, ls.getD pli 0 + op.i2))) ++
            (apply_inline_highlights ls rs rest).1,
           (((getOpcodes plt.toList prt.toList).filter
              (fun op => decide (op.tag ≠ Tag.equal ∧ op.j1 < op.j2))).map
              (fun op => (rs.getD pri 0 + op.j1, rs.getD pri 0 + op.j2))) ++
            (apply_inline_highlights ls rs rest).2) := by
        simp only [apply_inline_highlights]
        rw [if_pos hb]
      rw [heq]
      constructor
      · constructor
        · intro hm
          rcases List.mem_append.mp hm with hm | hm
          · obtain ⟨op, hop, rfl⟩ := List.mem_map.mp hm
            obtain ⟨hopin, hpred⟩ := List.mem_filter.mp hop
            rw [decide_eq_true_iff] at hpred
            exact ⟨pli, pri, plt, prt, List.mem_cons_self _ _, hb.1, hb.2,
              op, hopin, hpred.1, hpred.2, rfl⟩
          · obtain ⟨li, ri, lt, rt, hpair, h1, h2, op, hop, ht, hi, hsp⟩ :=
              ihs.1.mp hm
            exact ⟨li, ri, lt, rt, List.mem_cons_of_mem _ hpair, h1, h2,
              op, hop, ht, hi, hsp⟩
        · rintro ⟨li, ri, lt, rt, hpair, h1, h2, op, hop, ht, hi, hsp⟩
          rcases List.mem_cons.mp hpair with hhead | htail
          · rw [Prod.mk.injEq, Prod.mk.injEq, Prod.mk.injEq] at hhead
            obtain ⟨e1, e2, e3, e4⟩ := hhead
            subst e1
            subst e2
            subst e3
            subst e4
            apply List.mem_append_left
            subst hsp
            refine List.mem_map.mpr ⟨op, List.mem_filter.mpr ⟨hop, ?_⟩, rfl⟩
            rw [decide_eq_true_iff]
            exact ⟨ht, hi⟩
          · exact List.mem_append_right _ (ihs.1.mpr
              ⟨li, ri, lt, rt, htail, h1, h2, op, hop, ht, hi, hsp⟩)
      · constructor
        · intro hm
          rcases List.mem_append.mp hm with hm | hm
          · obtain ⟨op, hop, rfl⟩ := List.mem_map.mp hm
            obtain ⟨hopin, hpred⟩ := List.mem_filter.mp hop
            rw [decide_eq_true_iff] at hpred
            exact ⟨pli, pri, plt, prt, List.mem_cons_self _ _, hb.1, hb.2,
              op, hopin, hpred.1, hpred.2, rfl⟩
          · obtain ⟨li, ri, lt, rt, hpair, h1, h2, op, hop, ht, hi, hsp⟩ :=
              ihs.2.mp hm
            exact ⟨li, ri, lt, rt, List.mem_cons_of_mem _ hpair, h1, h2,
              op, hop, ht, hi, hsp⟩
        · rintro ⟨li, ri, lt, rt, hpair, h1, h2, op, hop, ht, hi, hsp⟩
          rcases List.mem_cons.mp hpair with hhead | htail
          · rw [Prod.mk.injEq, Prod.mk.injEq, Prod.mk.injEq] at hhead
            obtain ⟨e1, e2, e3, e4⟩ := hhead
            subst e1
            subst e2
            subst e3
            subst e4
            apply List.mem_append_left
            subst hsp
            refine List.mem_map.mpr ⟨op, List.mem_filter.mpr ⟨hop, ?_⟩, rfl⟩
            rw [decide_eq_true_iff]
            exact ⟨ht, hi⟩
          · exact List.mem_append_right _ (ihs.2.mpr
              ⟨li, ri, lt, rt, htail, h1, h2, op, hop, ht, hi, hsp⟩)
    · have heq : apply_inline_highlights ls rs ((pli, pri, plt, prt) :: rest) =
          apply_inline_highlights ls rs rest := by
        simp only [apply_inline_highlights]
        rw [if_neg hb]
      rw [heq]
      constructor
      · constructor
        · intro hm
          obtain ⟨li, ri, lt, rt, hpair, h1, h2, hrest⟩ := ihs.1.mp hm
          exact ⟨li, ri, lt, rt, List.mem_cons_of_mem _ hpair, h1, h2, hrest⟩
        · rintro ⟨li, ri, lt, rt, hpair, h1, h2, op, hop, ht, hi, hsp⟩
          rcases List.mem_cons.mp hpair with hhead | htail
          · rw [Prod.mk.injEq, Prod.mk.injEq, Prod.mk.injEq] at hhead
            obtain ⟨e1, e2, e3, e4⟩ := hhead
            exact absurd ⟨e1 ▸ h1, e2 ▸ h2⟩ hb
          · exact ihs.1.mpr ⟨li, ri, lt, rt, htail, h1, h2, op, hop, ht,
              hi, hsp⟩
      · constructor
        · intro hm
          obtain ⟨li, ri, lt, rt, hpair, h1, h2, hrest⟩ := ihs.2.mp hm
          exact ⟨li, ri, lt, rt, List.mem_cons_of_mem _ hpair, h1, h2, hrest⟩
        · rintro ⟨li, ri, lt, rt, hpair, h1, h2, op, hop, ht, hi, hsp⟩
          rcases List.mem_cons.mp hpair with hhead | htail
          · rw [Prod.mk.injEq, Prod.mk.injEq, Prod.mk.injEq] at hhead
            obtain ⟨e1, e2, e3, e4⟩ := hhead
            exact absurd ⟨e1 ▸ h1, e2 ▸ h2⟩ hb
          · exact ihs.2.mpr ⟨li, ri, lt, rt, htail, h1, h2, op, hop, ht,
              hi, hsp⟩

/-- C1: in the Diff Model returned by `compute_diff`, deleting from
`left_lines` exactly the rows whose index is in the left `blank` mark set
reproduces the original left input, element for element and in order;
symmetrically on the right. -/
theorem claim_reconstruction (left right : List String) :
    removeMarked (compute_diff left right).left_lines
      (compute_diff left right).left_marks.blank = left ∧
    removeMarked (compute_diff left right).right_lines
      (compute_diff left right).right_marks.blank = right := by
  unfold removeMarked compute_diff
  constructor
  · have h := diffGo_recon_left left right (getOpcodes left right) 0 0 0 0
      (getOpcodes_opChain left right)
    simpa using h
  · have h := diffGo_recon_right left right (getOpcodes left right) 0 0 0 0
      (getOpcodes_opChain left right)
    simpa using h

/-- C2: the `diff_blocks` produced by `compute_diff` are strictly increasing
in the left anchor component and in the right anchor component: any anchor
preceding another is smaller in both coordinates. -/
theorem claim_block_ordering (left right : List String) :
    List.Pairwise (fun p q : Nat × Nat => p.1 < q.1 ∧ p.2 < q.2)
      (compute_diff left right).diff_blocks :=
  diffGo_blocks_lt left right (getOpcodes left right) 0 0 left.length
    right.length 0 0 (getOpcodes_opChain left right)

/-- C5: for every pair of inputs (including empty ones), the Diff Model of
`compute_diff` has as many left output rows as right output rows. -/
theorem claim_length_invariant (left right : List String) :
    (compute_diff left right).left_lines.length =
    (compute_diff left right).right_lines.length :=
  diffGo_len left right (getOpcodes left right) 0 0

/-- C8: comparing a sequence with itself yields no blocks, no changed pairs,
and both output sides equal to the input. -/
theorem claim_identity (X : List String) :
    (compute_diff X X).diff_blocks = [] ∧
    (compute_diff X X).changed_pairs = [] ∧
    (compute_diff X X).left_lines = X ∧
    (compute_diff X X).right_lines = X :=
  compute_diff_self X

/-- C10: in each side of the Diff Model of `compute_diff`, the four mark
sets `added`, `deleted`, `changed`, `blank` are pairwise disjoint. -/
theorem claim_marks_exclusive (left right : List String) :
    MarksDisjoint (compute_diff left right).left_marks ∧
    MarksDisjoint (compute_diff left right).right_marks :=
  diffGo_disjoint left right (getOpcodes left right) 0 0

/-- C3: after the event-driven path propagates surface A's scroll offset to
its peer (A not being re-entrancy-guarded, so the copy happens), the
immediately following poll tick changes neither viewport, and afterwards
both last-known offsets equal the current offsets. -/
theorem claim_sync_idempotence (A : Side) (st : SyncState)
    (h : (match A with | Side.left => st.syncL | Side.right => st.syncR) =
      false) :
    (fast_poll_tick (sync_peer A st)).vpL = (sync_peer A st).vpL ∧
    (fast_poll_tick (sync_peer A st)).vpR = (sync_peer A st).vpR ∧
    (fast_poll_tick (sync_peer A st)).lastL =
      some ((fast_poll_tick (sync_peer A st)).vpL) ∧
    (fast_poll_tick (sync_peer A st)).lastR =
      some ((fast_poll_tick (sync_peer A st)).vpR) := by
  have he := sync_peer_eq A st h
  obtain ⟨h1, h2, h3, h4⟩ := fast_poll_tick_of_eq (sync_peer A st) he
  refine ⟨h1, h2, ?_, ?_⟩
  · rw [h1]; exact h3
  · rw [h2]; exact h4

/-- Witness for C3 at a concrete synchroniser state. -/
theorem claim_sync_idempotence_witness :
    (fast_poll_tick (sync_peer Side.left
        (⟨(1, 2), (3, 4), some (5, 6), none, false, true⟩ : SyncState))).vpL =
      (sync_peer Side.left
        (⟨(1, 2), (3, 4), some (5, 6), none, false, true⟩ : SyncState)).vpL ∧
    (fast_poll_tick (sync_peer Side.left
        (⟨(1, 2), (3, 4), some (5, 6), none, false, true⟩ : SyncState))).vpR =
      (sync_peer Side.left
        (⟨(1, 2), (3, 4), some (5, 6), none, false, true⟩ : SyncState)).vpR ∧
    (fast_poll_tick (sync_peer Side.left
        (⟨(1, 2), (3, 4), some (5, 6), none, false, true⟩ : SyncState))).lastL =
      some ((fast_poll_tick (sync_peer Side.left
        (⟨(1, 2), (3, 4), some (5, 6), none, false, true⟩ : SyncState))).vpL) ∧
    (fast_poll_tick (sync_peer Side.left
        (⟨(1, 2), (3, 4), some (5, 6), none, false, true⟩ : SyncState))).lastR =
      some ((fast_poll_tick (sync_peer Side.left
        (⟨(1, 2), (3, 4), some (5, 6), none, false, true⟩ : SyncState))).vpR) :=
  claim_sync_idempotence Side.left
    ⟨(1, 2), (3, 4), some (5, 6), none, false, true⟩ rfl

/-- C6: with a nonempty block list, iterating NextBlock as many times as
there are blocks returns the session to its starting state (for any cursor
already in range), and PrevBlock from block 0 lands the cursor on the last
block; with an empty block list both commands return no target and leave
the session unchanged. -/
theorem claim_navigation_wraparound (blocks : List (Nat × Nat)) (bi : Int) :
    (blocks ≠ [] → 0 ≤ bi → bi < (blocks.length : Int) →
      (fun s => (next_block s).2)^[blocks.length]
        (⟨blocks, bi⟩ : CompareSession) = ⟨blocks, bi⟩) ∧
    (blocks ≠ [] →
      (prev_block (⟨blocks, 0⟩ : CompareSession)).2.block_index =
        (blocks.length : Int) - 1) ∧
    (blocks = [] →
      next_block (⟨blocks, bi⟩ : CompareSession) = (none, ⟨blocks, bi⟩) ∧
      prev_block (⟨blocks, bi⟩ : CompareSession) = (none, ⟨blocks, bi⟩)) := by
  refine ⟨?_, ?_, ?_⟩
  · intro h h0 hlt
    obtain ⟨n, hn⟩ : ∃ n, blocks.length = n + 1 := by
      cases blocks with
      | nil => exact absurd rfl h
      | cons x xs => exact ⟨xs.length, rfl⟩
    rw [hn, next_block_iterate blocks h n bi]
    have hlen : (blocks.length : Int) = (n : Int) + 1 := by
      rw [hn]; push_cast; ring
    have hmod : (bi + ((n : Int) + 1)) % (blocks.length : Int) = bi := by
      rw [hlen, Int.add_emod_self]
      exact Int.emod_eq_of_lt h0 (by omega)
    rw [show (bi + (↑n + 1)) % (blocks.length : Int) = bi from hmod]
  · intro h
    have hpos : 0 < blocks.length := List.length_pos.mpr h
    have hL : (1 : Int) ≤ (blocks.length : Int) := by exact_mod_cast hpos
    unfold prev_block
    rw [if_neg (by simpa [List.isEmpty_iff] using h)]
    show ((0 : Int) - 1) % (blocks.length : Int) = (blocks.length : Int) - 1
    have h1 : ((blocks.length : Int) - 1) % (blocks.length : Int) =
        ((0 : Int) - 1) % (blocks.length : Int) := by
      have h2 : (blocks.length : Int) - 1 =
          (0 - 1) + (blocks.length : Int) := by ring
      rw [h2, Int.add_emod_self]
    rw [← h1]
    exact Int.emod_eq_of_lt (by omega) (by omega)
  · intro h
    subst h
    exact ⟨rfl, rfl⟩

/-- C7: closing a registered session by a key it is registered under
removes the entry under that key and under both of the session's own keys
in one operation, tears down both display views without raising (the
returned liveness pair is `(false, false)` even for an already-gone view),
makes a second close under any of those keys a no-op, and leaves every
other registry key untouched. -/
theorem claim_close_removes_both (reg : List (Nat × SessionRef)) (wid : Nat)
    (s : SessionRef) (h : rlookup reg wid = some s) :
    rlookup (close_session wid reg).1 wid = none ∧
    rlookup (close_session wid reg).1 s.src = none ∧
    rlookup (close_session wid reg).1 s.disp = none ∧
    (close_session wid reg).2 = some (false, false) ∧
    close_session wid (close_session wid reg).1 =
      ((close_session wid reg).1, none) ∧
    close_session s.src (close_session wid reg).1 =
      ((close_session wid reg).1, none) ∧
    close_session s.disp (close_session wid reg).1 =
      ((close_session wid reg).1, none) ∧
    (∀ k, k ≠ wid → k ≠ s.src → k ≠ s.disp →
      rlookup (close_session wid reg).1 k = rlookup reg k) := by
  have hcs : close_session wid reg =
      (rpop (rpop (rpop reg wid) s.src) s.disp,
        some (tryCloseView s.leftAlive, tryCloseView s.rightAlive)) := by
    unfold close_session
    rw [h]
  have l3 : rlookup (close_session wid reg).1 s.disp = none := by
    rw [hcs]
    exact rlookup_rpop_self _ _
  have l2 : rlookup (close_session wid reg).1 s.src = none := by
    rw [hcs]
    by_cases hd : s.src = s.disp
    · rw [hd]
      exact rlookup_rpop_self _ _
    · rw [rlookup_rpop_other _ _ _ hd]
      exact rlookup_rpop_self _ _
  have l1 : rlookup (close_session wid reg).1 wid = none := by
    rw [hcs]
    by_cases h1 : wid = s.disp
    · rw [h1]
      exact rlookup_rpop_self _ _
    · rw [rlookup_rpop_other _ _ _ h1]
      by_cases h2 : wid = s.src
      · rw [h2]
        exact rlookup_rpop_self _ _
      · rw [rlookup_rpop_other _ _ _ h2]
        exact rlookup_rpop_self _ _
  have noop : ∀ (k : Nat) (R : List (Nat × SessionRef)),
      rlookup R k = none → close_session k R = (R, none) := by
    intro k R hk
    unfold close_session
    rw [hk, rpop_of_lookup_none _ _ hk]
  refine ⟨l1, l2, l3, ?_, noop _ _ l1, noop _ _ l2, noop _ _ l3, ?_⟩
  · rw [hcs]
    simp [tryCloseView_closed]
  · intro k hkw hks hkd
    rw [hcs]
    show rlookup (rpop (rpop (rpop reg wid) s.src) s.disp) k = rlookup reg k
    rw [rlookup_rpop_other _ _ _ hkd, rlookup_rpop_other _ _ _ hks,
      rlookup_rpop_other _ _ _ hkw]

/-- Witness for C7 on a concrete two-key registry. -/
theorem claim_close_removes_both_witness :
    rlookup (close_session 2 [(1, (⟨1, 2, true, false⟩ : SessionRef)),
        (2, (⟨1, 2, true, false⟩ : SessionRef))]).1 2 = none ∧
    rlookup (close_session 2 [(1, (⟨1, 2, true, false⟩ : SessionRef)),
        (2, (⟨1, 2, true, false⟩ : SessionRef))]).1 1 = none ∧
    rlookup (close_session 2 [(1, (⟨1, 2, true, false⟩ : SessionRef)),
        (2, (⟨1, 2, true, false⟩ : SessionRef))]).1 2 = none ∧
    (close_session 2 [(1, (⟨1, 2, true, false⟩ : SessionRef)),
        (2, (⟨1, 2, true, false⟩ : SessionRef))]).2 = some (false, false) ∧
    close_session 2 (close_session 2 [(1, (⟨1, 2, true, false⟩ :
        SessionRef)), (2, (⟨1, 2, true, false⟩ : SessionRef))]).1 =
      ((close_session 2 [(1, (⟨1, 2, true, false⟩ : SessionRef)),
        (2, (⟨1, 2, true, false⟩ : SessionRef))]).1, none) ∧
    close_session 1 (close_session 2 [(1, (⟨1, 2, true, false⟩ :
        SessionRef)), (2, (⟨1, 2, true, false⟩ : SessionRef))]).1 =
      ((close_session 2 [(1, (⟨1, 2, true, false⟩ : SessionRef)),
        (2, (⟨1, 2, true, false⟩ : SessionRef))]).1, none) ∧
    close_session 2 (close_session 2 [(1, (⟨1, 2, true, false⟩ :
        SessionRef)), (2, (⟨1, 2, true, false⟩ : SessionRef))]).1 =
      ((close_session 2 [(1, (⟨1, 2, true, false⟩ : SessionRef)),
        (2, (⟨1, 2, true, false⟩ : SessionRef))]).1, none) ∧
    (∀ k, k ≠ 2 → k ≠ 1 → k ≠ 2 →
      rlookup (close_session 2 [(1, (⟨1, 2, true, false⟩ : SessionRef)),
          (2, (⟨1, 2, true, false⟩ : SessionRef))]).1 k =
        rlookup [(1, (⟨1, 2, true, false⟩ : SessionRef)),
          (2, (⟨1, 2, true, false⟩ : SessionRef))] k) :=
  claim_close_removes_both
    [(1, (⟨1, 2, true, false⟩ : SessionRef)),
      (2, (⟨1, 2, true, false⟩ : SessionRef))]
    2 ⟨1, 2, true, false⟩ (by decide)

/-- Indexing into a mapped range prefix of an appended list. -/
theorem getElem_map_range_append {β : Type} (f : Nat → β) (l2 : List β)
    (n k : Nat) (hk : k < n) :
    ((List.range n).map f ++ l2)[k]? = some (f k) := by
  rw [List.getElem?_append_left (by simpa using hk), List.getElem?_map,
    List.getElem?_range hk]
  rfl

/-- C4: the `replace` branch of the opcode walk emits exactly
`max lcount rcount` rows: a row inside both ranges carries both sides' real
text, is marked `changed` on both sides, and its pair is appended to
`changed_pairs`; a row of a longer left range keeps the left text marked
`deleted` against right filler marked `blank`; a row of a longer right
range is symmetric; exactly one anchor is recorded at the pre-loop cursor
pair.  On `["a","b","c"]` vs `["a","x","c"]` this yields one block at row
1, output lines equal to the inputs, `changed` marks `[1]` on both sides,
and `changed_pairs = [(1, 1, "b", "x")]`. -/
theorem claim_replace_branch (left right : List String) (rest : List Opcode)
    (i1 i2 j1 j2 li ri : Nat) :
    (diffGo left right (⟨Tag.replace, i1, i2, j1, j2⟩ :: rest) li ri).left_lines.length =
      max (i2 - i1) (j2 - j1) + (diffGo left right rest (li + max (i2 - i1) (j2 - j1))
        (ri + max (i2 - i1) (j2 - j1))).left_lines.length ∧
    (diffGo left right (⟨Tag.replace, i1, i2, j1, j2⟩ :: rest) li ri).right_lines.length =
      max (i2 - i1) (j2 - j1) + (diffGo left right rest (li + max (i2 - i1) (j2 - j1))
        (ri + max (i2 - i1) (j2 - j1))).right_lines.length ∧
    (∀ k, k < i2 - i1 → k < j2 - j1 →
      (diffGo left right (⟨Tag.replace, i1, i2, j1, j2⟩ :: rest) li ri).left_lines[k]? = some (left.getD (i1 + k) "") ∧
      (diffGo left right (⟨Tag.replace, i1, i2, j1, j2⟩ :: rest) li ri).right_lines[k]? = some (right.getD (j1 + k) "") ∧
      li + k ∈ (diffGo left right (⟨Tag.replace, i1, i2, j1, j2⟩ :: rest) li ri).left_marks.changed ∧
      ri + k ∈ (diffGo left right (⟨Tag.replace, i1, i2, j1, j2⟩ :: rest) li ri).right_marks.changed ∧
      (li + k, ri + k, left.getD (i1 + k) "", right.getD (j1 + k) "") ∈
        (diffGo left right (⟨Tag.replace, i1, i2, j1, j2⟩ :: rest) li ri).changed_pairs) ∧
    (∀ k, j2 - j1 ≤ k → k < i2 - i1 →
      (diffGo left right (⟨Tag.replace, i1, i2, j1, j2⟩ :: rest) li ri).left_lines[k]? = some (left.getD (i1 + k) "") ∧
      (diffGo left right (⟨Tag.replace, i1, i2, j1, j2⟩ :: rest) li ri).right_lines[k]? = some BLANK_FILL ∧
      li + k ∈ (diffGo left right (⟨Tag.replace, i1, i2, j1, j2⟩ :: rest) li ri).left_marks.deleted ∧
      ri + k ∈ (diffGo left right (⟨Tag.replace, i1, i2, j1, j2⟩ :: rest) li ri).right_marks.blank) ∧
    (∀ k, i2 - i1 ≤ k → k < j2 - j1 →
      (diffGo left right (⟨Tag.replace, i1, i2, j1, j2⟩ :: rest) li ri).left_lines[k]? = some BLANK_FILL ∧
      (diffGo left right (⟨Tag.replace, i1, i2, j1, j2⟩ :: rest) li ri).right_lines[k]? = some (right.getD (j1 + k) "") ∧
      li + k ∈ (diffGo left right (⟨Tag.replace, i1, i2, j1, j2⟩ :: rest) li ri).left_marks.blank ∧
      ri + k ∈ (diffGo left right (⟨Tag.replace, i1, i2, j1, j2⟩ :: rest) li ri).right_marks.added) ∧
    (diffGo left right (⟨Tag.replace, i1, i2, j1, j2⟩ :: rest) li ri).diff_blocks = (li, ri) :: (diffGo left right rest (li + max (i2 - i1) (j2 - j1))
        (ri + max (i2 - i1) (j2 - j1))).diff_blocks ∧
    compute_diff ["a", "b", "c"] ["a", "x", "c"] =
      ⟨["a", "b", "c"], ["a", "x", "c"], ⟨[], [], [1], []⟩,
        ⟨[], [], [1], []⟩, [(1, 1)], [(1, 1, "b", "x")]⟩ := by
  refine ⟨?_, ?_, ?_, ?_, ?_, ?_, ?_⟩
  · simp [diffGo]
  · simp [diffGo]
  · intro k hkl hkr
    have hkn : k < max (i2 - i1) (j2 - j1) :=
      lt_of_lt_of_le hkl (le_max_left _ _)
    simp only [diffGo]
    refine ⟨?_, ?_, ?_, ?_, ?_⟩
    · rw [getElem_map_range_append _ _ _ _ hkn]
      simp [hkl]
    · rw [getElem_map_range_append _ _ _ _ hkn]
      simp [hkr]
    · exact List.mem_append_left _ (List.mem_map.mpr ⟨k,
        List.mem_filter.mpr ⟨List.mem_range.mpr hkn,
          decide_eq_true ⟨hkl, hkr⟩⟩, rfl⟩)
    · exact List.mem_append_left _ (List.mem_map.mpr ⟨k,
        List.mem_filter.mpr ⟨List.mem_range.mpr hkn,
          decide_eq_true ⟨hkl, hkr⟩⟩, rfl⟩)
    · refine List.mem_append_left _ (List.mem_map.mpr ⟨k,
        List.mem_filter.mpr ⟨List.mem_range.mpr hkn,
          decide_eq_true ⟨hkl, hkr⟩⟩, ?_⟩)
      simp [hkl, hkr]
  · intro k hkr hkl
    have hkn : k < max (i2 - i1) (j2 - j1) :=
      lt_of_lt_of_le hkl (le_max_left _ _)
    have hnr : ¬ k < j2 - j1 := by omega
    simp only [diffGo]
    refine ⟨?_, ?_, ?_, ?_⟩
    · rw [getElem_map_range_append _ _ _ _ hkn]
      simp [hkl]
    · rw [getElem_map_range_append _ _ _ _ hkn]
      simp [hnr]
    · exact List.mem_append_left _ (List.mem_map.mpr ⟨k,
        List.mem_filter.mpr ⟨List.mem_range.mpr hkn,
          decide_eq_true ⟨hkl, hnr⟩⟩, rfl⟩)
    · exact List.mem_append_left _ (List.mem_map.mpr ⟨k,
        List.mem_filter.mpr ⟨List.mem_range.mpr hkn,
          decide_eq_true ⟨hkl, hnr⟩⟩, rfl⟩)
  · intro k hkl hkr
    have hkn : k < max (i2 - i1) (j2 - j1) :=
      lt_of_lt_of_le hkr (le_max_right _ _)
    have hnl : ¬ k < i2 - i1 := by omega
    simp only [diffGo]
    refine ⟨?_, ?_, ?_, ?_⟩
    · rw [getElem_map_range_append _ _ _ _ hkn]
      simp [hnl]
    · rw [getElem_map_range_append _ _ _ _ hkn]
      simp [hkr]
    · exact List.mem_append_left _ (List.mem_map.mpr ⟨k,
        List.mem_filter.mpr ⟨List.mem_range.mpr hkn,
          decide_eq_true hnl⟩, rfl⟩)
    · exact List.mem_append_left _ (List.mem_map.mpr ⟨k,
        List.mem_filter.mpr ⟨List.mem_range.mpr hkn,
          decide_eq_true hnl⟩, rfl⟩)
  · simp only [diffGo]
  · show compute_diff ["a", "b", "c"] ["a", "x", "c"] = _
    unfold compute_diff
    rw [getOpcodes_example]
    decide

end BetterCompare
